/-
  Verification of the AoC 2021 Rust repository against its natural-language
  specification.  Each Rust function relevant to a claim is shallowly embedded
  as an executable Lean definition translated from the source; machine
  integers are modelled as Nat (the programs under consideration keep all
  values far below the u32/u64 ranges except where a claim is about the
  range itself, in which case the bound 2 ^ 64 appears explicitly).
-/
import Mathlib

set_option maxHeartbeats 1000000

namespace Day18

/-- `SnailFish` from day18/src/lib.rs: either a number (leaf) or a pair. -/
inductive SnailFish where
  | num : Nat → SnailFish
  | pair : SnailFish → SnailFish → SnailFish
deriving DecidableEq, Repr

namespace SnailFish

/-- `SnailFish::magnitude` (day18/src/lib.rs): `Num x ↦ x`,
`Pair(l, r) ↦ 3 * magnitude l + 2 * magnitude r`. -/
def magnitude : SnailFish → Nat
  | .num x => x
  | .pair l r => l.magnitude * 3 + r.magnitude * 2

/-- Number of leaves of a snail number (spec-side notion used by C8). -/
def numLeaves : SnailFish → Nat
  | .num _ => 1
  | .pair l r => l.numLeaves + r.numLeaves

/-- Is every leaf value positive?  (Hypothesis of the amended C8.) -/
def leavesPos : SnailFish → Bool
  | .num n => decide (1 ≤ n)
  | .pair l r => l.leavesPos && r.leavesPos

/-- The value of a leaf, `none` on a pair (mirrors the
`if let SnailFish::Num(n) = bx.0` tests inside `SnailFish::explode`). -/
def leafVal? : SnailFish → Option Nat
  | .num n => some n
  | .pair _ _ => none

/-- Add `v` to the leftmost leaf: mirrors `recurse_left_mut` followed by
`try_add_value` in day18/src/lib.rs. -/
def addLeftmost : SnailFish → Nat → SnailFish
  | .num n, v => .num (n + v)
  | .pair a b, v => .pair (a.addLeftmost v) b

/-- Add `v` to the rightmost leaf: mirrors `recurse_right_mut` followed by
`try_add_value`. -/
def addRightmost : SnailFish → Nat → SnailFish
  | .num n, v => .num (n + v)
  | .pair a b, v => .pair a (b.addRightmost v)

/-- Functional embedding of `SnailFish::explode` (day18/src/lib.rs).
The Rust code runs a breadth-first scan and explodes the first node popped
with depth ≥ 4 that is a pair — i.e. the leftmost pair lying at depth
exactly 4 (deeper nodes are never enqueued, and within one BFS level the
queue order is the left-to-right order).  The exploding pair's left (resp.
right) child value is propagated to the in-order predecessor (resp.
successor) leaf only when that child is itself a leaf; the whole subtree is
then replaced by `Num 0`.  This recursion selects the same node (leftmost
at depth 4) and performs the same updates.  Result components: value still
looking for a leaf further left, rewritten tree, value still looking for a
leaf further right. -/
def explodeGo : SnailFish → Nat → Option (Option Nat × SnailFish × Option Nat)
  | .num _, _ => none
  | .pair a b, d =>
    if 4 ≤ d then
      some (a.leafVal?, .num 0, b.leafVal?)
    else
      match a.explodeGo (d + 1) with
      | some (lv, a2, rv) =>
        some (lv, .pair a2 (match rv with
                            | some v => b.addLeftmost v
                            | none => b), none)
      | none =>
        match b.explodeGo (d + 1) with
        | some (lv, b2, rv) =>
          some (none, .pair (match lv with
                             | some v => a.addRightmost v
                             | none => a) b2, rv)
        | none => none

/-- `SnailFish::explode` as a state transformer: `some t2` when the Rust
method returns `true` having rewritten the tree to `t2`, `none` when it
returns `false` (tree untouched). -/
def explodeStep (t : SnailFish) : Option SnailFish :=
  (t.explodeGo 0).map (fun x => x.2.1)

/-- One `split` pass of `SnailFish::reduce`: the Rust loop walks
`iter_mut()` (the leaves in left-to-right order) and splits the first leaf
with value ≥ 10, exactly as `SnailFish::split` does:
`d ↦ Pair(d / 2, d / 2 (+1 if the halves undershoot))`. -/
def splitStep : SnailFish → Option SnailFish
  | .num d =>
    if 10 ≤ d then
      some (.pair (.num (d / 2))
        (.num (if d / 2 + d / 2 < d then d / 2 + 1 else d / 2)))
    else none
  | .pair a b =>
    match a.splitStep with
    | some a2 => some (.pair a2 b)
    | none => (b.splitStep).map (fun b2 => .pair a b2)

/-- `SnailFish::reduce` (day18/src/lib.rs), with the unbounded `loop`
modelled by explicit fuel: explode if possible, otherwise split the first
splittable leaf, otherwise stop.  `none` means the fuel ran out. -/
def reduceF : Nat → SnailFish → Option SnailFish
  | 0, _ => none
  | fuel + 1, t =>
    match t.explodeStep with
    | some t2 => reduceF fuel t2
    | none =>
      match t.splitStep with
      | some t2 => reduceF fuel t2
      | none => some t

end SnailFish

/-- The explode behaviour exactly as claim C2 words it: search in pre-order
for the leftmost `Pair(Leaf l, Leaf r)` whose depth is ≥ 4, add `l` to the
in-order predecessor leaf, `r` to the in-order successor leaf, and replace
the pair by `Leaf 0`.  (Spec-side definition, used to compare against the
code's `explodeGo`.) -/
def claimExplodeGo : SnailFish → Nat → Option (Option Nat × SnailFish × Option Nat)
  | .num _, _ => none
  | .pair (.num l) (.num r), d =>
    if 4 ≤ d then some (some l, .num 0, some r) else none
  | .pair a b, d =>
    match claimExplodeGo a (d + 1) with
    | some (lv, a2, rv) =>
      some (lv, .pair a2 (match rv with
                          | some v => b.addLeftmost v
                          | none => b), none)
    | none =>
      match claimExplodeGo b (d + 1) with
      | some (lv, b2, rv) =>
        some (none, .pair (match lv with
                           | some v => a.addRightmost v
                           | none => a) b2, rv)
      | none => none

/-- Claim C2's explode as a state transformer. -/
def claimExplodeStep (t : SnailFish) : Option SnailFish :=
  (claimExplodeGo t 0).map (fun x => x.2.1)

/-- Concrete tree separating the code's explode from claim C2's explode:
`[[[[[[1,2],3],4],5],6],7]`. -/
def cexTree : SnailFish :=
  .pair (.pair (.pair (.pair (.pair (.pair (.num 1) (.num 2)) (.num 3))
    (.num 4)) (.num 5)) (.num 6)) (.num 7)

/-- A path from the root of a snail number: `false` = left child. -/
abbrev Path := List Bool

namespace SnailFish

/-- The subtree reached by following a path. -/
def subtree? : SnailFish → Path → Option SnailFish
  | t, [] => some t
  | .num _, _ :: _ => none
  | .pair a _, false :: p => subtree? a p
  | .pair _ b, true :: p => subtree? b p

/-- Replace the subtree at a path (identity when the path leaves the tree). -/
def replaceAt : SnailFish → Path → SnailFish → SnailFish
  | _, [], x => x
  | .num n, _ :: _, _ => .num n
  | .pair a b, false :: p, x => .pair (replaceAt a p x) b
  | .pair a b, true :: p, x => .pair a (replaceAt b p x)

/-- How many leaves lie strictly to the left (in in-order traversal) of the
subtree at a path. -/
def leavesBefore : SnailFish → Path → Nat
  | _, [] => 0
  | .num _, _ :: _ => 0
  | .pair a _, false :: p => leavesBefore a p
  | .pair a b, true :: p => a.numLeaves + leavesBefore b p

/-- Apply `f` to the `k`-th leaf (0-indexed, in-order); identity when `k` is
out of range. -/
def mapLeafIdx : SnailFish → Nat → (Nat → Nat) → SnailFish
  | .num n, 0, f => .num (f n)
  | .num n, _ + 1, _ => .num n
  | .pair a b, k, f =>
    if k < a.numLeaves then .pair (mapLeafIdx a k f) b
    else .pair a (mapLeafIdx b (k - a.numLeaves) f)

/-- The paths of length exactly `d` whose subtree is a pair, in
left-to-right order. -/
def pairPaths : SnailFish → Nat → List Path
  | .num _, _ => []
  | .pair _ _, 0 => [[]]
  | .pair a b, d + 1 =>
    (pairPaths a d).map (List.cons false) ++ (pairPaths b d).map (List.cons true)

/-- The explosion of the pair `Pair(x, y)` sitting at path `pth` of `t`,
described by leaf indices as in the (amended) claim C2: replace the subtree
by `Leaf 0`; when the left child `x` is itself a leaf add its value to the
leaf just before the subtree (if any); when the right child `y` is a leaf
add its value to the leaf just after (if any). -/
def localExplode (t : SnailFish) (pth : Path) (x y : SnailFish) : SnailFish :=
  let i := leavesBefore t pth
  let t1 := replaceAt t pth (.num 0)
  let t2 := match x.leafVal? with
            | some l => if 1 ≤ i then mapLeafIdx t1 (i - 1) (fun n => n + l) else t1
            | none => t1
  match y.leafVal? with
  | some r => if i + 1 < t1.numLeaves then mapLeafIdx t2 (i + 1) (fun n => n + r) else t2
  | none => t2

/-- Spec-side description of what `SnailFish::explode` does (the amended
claim C2): explode the leftmost pair at depth exactly 4, located by its
path, with neighbour updates described by in-order leaf indices. -/
def amendedExplode (t : SnailFish) : Option SnailFish :=
  match (pairPaths t 4).head? with
  | none => none
  | some pth =>
    match subtree? t pth with
    | some (.pair x y) => some (localExplode t pth x y)
    | _ => none

/-- Spec-side description of `explodeGo` at remaining depth `k`: all three
components (value still travelling left, rewritten tree, value still
travelling right) expressed through paths and leaf indices. -/
def specGo (t : SnailFish) (k : Nat) : Option (Option Nat × SnailFish × Option Nat) :=
  match (pairPaths t k).head? with
  | none => none
  | some pth =>
    match subtree? t pth with
    | some (.pair x y) =>
      some (if leavesBefore t pth = 0 then x.leafVal? else none,
            localExplode t pth x y,
            if leavesBefore t pth + 1 < (replaceAt t pth (.num 0)).numLeaves then none
            else y.leafVal?)
    | _ => none

end SnailFish

end Day18

namespace Day15

/-- `Point` from day15/src/lib.rs: a grid cell with coordinates and its
risk value.  The `u32` fields stay far below `2 ^ 32` for every parsed
grid, so they are modelled as plain naturals. -/
structure Point where
  x : Nat
  y : Nat
  value : Nat
deriving DecidableEq, Repr

/-- `Input` from day15/src/lib.rs: the list of points in the order the
parser pushed them. -/
structure Input where
  points : List Point
deriving DecidableEq, Repr

namespace Input

/-- `Input::get_width`: 1 + the largest x coordinate, 0 on an empty grid. -/
def getWidth (i : Input) : Nat :=
  (i.points.map (fun p => p.x + 1)).foldr max 0

/-- `Input::get_height`: 1 + the largest y coordinate, 0 on an empty grid. -/
def getHeight (i : Input) : Nat :=
  (i.points.map (fun p => p.y + 1)).foldr max 0

/-- `Input::scale` (day15/src/lib.rs): for every point and every block
offset `(sx, sy)` other than `(0, 0)` push a translated copy whose value is
`(value + sx + sy - 1) % 9 + 1`, then append all the new points after the
original ones. -/
def scale (i : Input) (times : Nat) : Input :=
  let height := i.getHeight
  let width := i.getWidth
  let newPoints := i.points.flatMap (fun p =>
    (List.range times).flatMap (fun sy =>
      (List.range times).filterMap (fun sx =>
        if sy = 0 ∧ sx = 0 then none
        else some { x := p.x + width * sx, y := p.y + height * sy,
                    value := (p.value + sx + sy - 1) % 9 + 1 })))
  ⟨i.points ++ newPoints⟩

end Input

/-- `char::to_digit(10)` for the characters fed by the day15 parser. -/
def charToDigit? (c : Char) : Option Nat :=
  if c.isDigit then some (c.toNat - '0'.toNat) else none

/-- Rust `str::lines` on a text given as a character list: split on a
newline terminator (a final newline produces no empty last line) and strip
one trailing carriage return from each line. -/
def splitNl : List Char → List (List Char)
  | [] => [[]]
  | c :: rest =>
    if c = '\n' then [] :: splitNl rest
    else
      match splitNl rest with
      | l :: ls => (c :: l) :: ls
      | [] => [[c]]

/-- Strip one trailing carriage return; applied by Rust `str::lines` only
to the pieces that were terminated by a newline, so that a final line
ending in a bare carriage return keeps it. -/
def stripTrailingCR (l : List Char) : List Char :=
  if l.getLast? = some '\r' then l.dropLast else l

/-- Rust `str::lines` (see `splitNl`): split on newline terminators (a
final newline produces no empty last line) and strip a carriage return
only when it preceded a newline; a lone trailing carriage return is kept,
as in the std example where `"baz\r"` stays `"baz\r"`. -/
def rustLines (s : List Char) : List (List Char) :=
  if s = [] then []
  else if s.getLast? = some '\n' then
    (splitNl s).dropLast.map stripTrailingCR
  else
    (splitNl s).dropLast.map stripTrailingCR ++ [((splitNl s).getLast?).getD []]

/-- One row of `<Input as FromStr>::from_str`: every character must be a
digit, and each becomes the point `(x, y, digit)`. -/
def parseRow (y : Nat) : Nat → List Char → Option (List Point)
  | _, [] => some []
  | x, c :: cs =>
    match charToDigit? c with
    | none => none
    | some v => (parseRow y (x + 1) cs).map (fun ps => ⟨x, y, v⟩ :: ps)

/-- The row loop of `<Input as FromStr>::from_str`. -/
def parseGrid : Nat → List (List Char) → Option (List Point)
  | _, [] => some []
  | y, l :: ls =>
    match parseRow y 0 l with
    | none => none
    | some ps => (parseGrid (y + 1) ls).map (fun rest => ps ++ rest)

/-- `<Input as FromStr>::from_str` (day15/src/lib.rs): enumerate the lines
and the characters of each line; fail on any non-digit character; there is
no emptiness or rectangularity check. -/
def inputFromStr (s : List Char) : Option Input :=
  (parseGrid 0 (rustLines s)).map Input.mk

/-- Spec-side description of the accepted grids: one cell per character,
at the character's (column, line) position, valued by its digit. -/
def specCells (ls : List (List Char)) : List Point :=
  (ls.enum.flatMap (fun ly =>
    (ly.2.enum.filterMap (fun cx =>
      (charToDigit? cx.2).map (fun v => ⟨cx.1, ly.1, v⟩)))))

/-- The scaled grid exactly as claim C3 words it: a `times × times` tiling
in which the copy of a cell of cost `c` in the block at offset `(bx, by)` —
including the block `(0, 0)` — costs `((c - 1 + bx + by) mod 9) + 1`,
computed over the integers. -/
def claimScaled (i : Input) (times : Nat) : Multiset Point :=
  Multiset.ofList <|
    (List.range times).flatMap (fun by2 =>
      (List.range times).flatMap (fun bx =>
        i.points.map (fun p =>
          { x := p.x + i.getWidth * bx, y := p.y + i.getHeight * by2,
            value := (((p.value : Int) - 1 + bx + by2) % 9 + 1).toNat })))

/-- The scaled grid as the code actually produces it (amended C3): the
block at `(0, 0)` keeps the original cells unchanged, every other block
`(bx, by)` applies the claimed cost transform. -/
def amendedScaled (i : Input) (times : Nat) : Multiset Point :=
  Multiset.ofList <|
    (List.range times).flatMap (fun by2 =>
      (List.range times).flatMap (fun bx =>
        i.points.map (fun p =>
          if bx = 0 ∧ by2 = 0 then p
          else { x := p.x + i.getWidth * bx, y := p.y + i.getHeight * by2,
                 value := (((p.value : Int) - 1 + bx + by2) % 9 + 1).toNat })))


/-- `Input::get_point` (day15/src/lib.rs): linear search for the first
point with the given coordinates. -/
def Input.getPoint (i : Input) (x y : Nat) : Option Point :=
  i.points.find? (fun p => p.x == x && p.y == y)

/-- `Edge` from day15/src/lib.rs: an ordered pair of points; its petgraph
weight is the value of the `to` endpoint. -/
structure Edge where
  a : Point
  b : Point
deriving DecidableEq, Repr

/-- `Input::into_edges` (day15/src/lib.rs): for every point, an edge to the
point below (if any) followed by an edge to the point to the right (if
any). -/
def Input.intoEdges (i : Input) : List Edge :=
  i.points.flatMap (fun p =>
    ((i.getPoint p.x (p.y + 1)).map (fun q => Edge.mk p q)).toList ++
    ((i.getPoint (p.x + 1) p.y).map (fun q => Edge.mk p q)).toList)

/-- Modelled from the spec: `petgraph::graphmap::UnGraphMap::from_edges`
(an external dependency, not part of this repository's sources) keeps its
nodes in first-insertion order, inserting both endpoints of each edge in
turn. -/
def insertNode (l : List Point) (p : Point) : List Point :=
  if p ∈ l then l else l ++ [p]

/-- The node list of the graph `UnGraphMap::from_edges(edges)` (see
`insertNode`). -/
def nodesOfEdges (es : List Edge) : List Point :=
  es.foldl (fun l e => insertNode (insertNode l e.a) e.b) []

/-- The start-node lookup of `solve_part1` (day15/src/main.rs):
`graph.nodes().find(|point| point.x == 0 && point.y == 0)`. -/
def findStart (ns : List Point) : Option Point :=
  ns.find? (fun p => p.x == 0 && p.y == 0)

/-- The end-node selection of `solve_part1` (day15/src/main.rs):
`reduce` keeping the lexicographically larger `(x, y)`. -/
def reduceEnd (ns : List Point) : Option Point :=
  match ns with
  | [] => none
  | h :: t =>
    some (t.foldl (fun acc p =>
      if acc.x < p.x ∨ (acc.x = p.x ∧ acc.y < p.y) then p else acc) h)

/-- One undirected traversal step of the graph built from an edge list. -/
def IsStep (es : List Edge) (p q : Point) : Prop :=
  ∃ e ∈ es, (e.a = p ∧ e.b = q) ∨ (e.a = q ∧ e.b = p)

/-- A walk through the graph from `s` to `t`: `l` lists the nodes entered
after `s`, each step following an undirected edge. -/
def IsGraphWalk (es : List Edge) (s t : Point) (l : List Point) : Prop :=
  List.Chain (IsStep es) s l ∧ (s :: l).getLast? = some t

/-- The total costs of all graph walks from `s` to `t`, each step weighted
by the value of the node it enters (the start's own value not counted) —
exactly how `solve_part1` weights traversal,
`|(_, dest, _)| dest.value`. -/
def reachCosts (es : List Edge) (s t : Point) : Set Nat :=
  { c | ∃ l, IsGraphWalk es s t l ∧ c = (l.map Point.value).sum }

/-- Modelled from the spec: `petgraph::algo::astar` (an external
dependency, not part of this repository's sources) returns
`Some((cost, path))` exactly when `cost` is the minimum total cost of a
walk from the start to the goal, each step costing its entered node's
value; `None` when the goal is unreachable. -/
def astarReturns (es : List Edge) (s t : Point) (c : Nat) : Prop :=
  IsLeast (reachCosts es s t) c

/-- `solve_part1` (day15/src/main.rs) as a relation: the program prints
`c` exactly when the start lookup and the end reduction succeed and the
spec-modelled `astar` returns `c`. -/
def solvePart1Rel (i : Input) (c : Nat) : Prop :=
  ∃ s t, findStart (nodesOfEdges i.intoEdges) = some s ∧
    reduceEnd (nodesOfEdges i.intoEdges) = some t ∧
    astarReturns i.intoEdges s t c

/-- 4-connectedness of two grid cells (the claim's notion of a step). -/
def gridStep (p q : Point) : Prop :=
  (p.x = q.x ∧ (p.y + 1 = q.y ∨ q.y + 1 = p.y)) ∨
  (p.y = q.y ∧ (p.x + 1 = q.x ∨ q.x + 1 = p.x))

/-- A 4-connected walk through the cells of the grid `i` from `s` to `t`
(the claim side of C1): every cell entered is a cell of the grid and each
step moves to a 4-neighbour. -/
def IsGridWalk (i : Input) (s t : Point) (l : List Point) : Prop :=
  (∀ p ∈ l, p ∈ i.points) ∧ List.Chain gridStep s l ∧
    (s :: l).getLast? = some t

/-- The claim side of C1: the total costs of all 4-connected walks from
`s` to `t` over the grid, summing the values of the cells entered (the
start cell's value excluded). -/
def gridWalkCosts (i : Input) (s t : Point) : Set Nat :=
  { c | ∃ l, IsGridWalk i s t l ∧ c = (l.map Point.value).sum }

/-- The grid `i` is a non-empty `W × H` rectangle: one cell at every
coordinate of `[0, W) × [0, H)` and nothing else. -/
def IsGrid (i : Input) (W H : Nat) : Prop :=
  0 < W ∧ 0 < H ∧
  (∀ p ∈ i.points, p.x < W ∧ p.y < H) ∧
  (∀ x < W, ∀ y < H, ∃ p ∈ i.points, p.x = x ∧ p.y = y) ∧
  (∀ p ∈ i.points, ∀ q ∈ i.points, p.x = q.x → p.y = q.y → p = q)

instance (i : Input) (W H : Nat) : Decidable (IsGrid i W H) := by
  unfold IsGrid; infer_instance

end Day15

namespace Day16

/-- `LengthType` from day16/src/lib.rs. -/
inductive LengthType where
  | totalLengthInBits : Nat → LengthType
  | subpacketCount : Nat → LengthType
deriving DecidableEq, Repr

/-- `OperatorType` from day16/src/lib.rs. -/
inductive OperatorType where
  | sum | product | minimum | maximum | greaterThan | lessThan | equalTo
deriving DecidableEq, Repr

/-- `MessageType` from day16/src/lib.rs. -/
inductive MessageType where
  | literal : Nat → MessageType
  | operator : LengthType → OperatorType → MessageType
deriving DecidableEq, Repr

/-- `Packet` from day16/src/lib.rs. -/
inductive Packet where
  | mk : Nat → MessageType → List Packet → Packet

mutual

/-- Decidable equality of packets. -/
def Packet.decEq : (a b : Packet) → Decidable (a = b)
  | .mk v1 m1 b1, .mk v2 m2 b2 =>
    if hv : v1 = v2 then
      if hm : m1 = m2 then
        match Packet.decEqList b1 b2 with
        | isTrue hb => isTrue (by rw [hv, hm, hb])
        | isFalse hb => isFalse (by intro h; injection h; contradiction)
      else isFalse (by intro h; injection h; contradiction)
    else isFalse (by intro h; injection h; contradiction)

/-- Decidable equality of packet lists. -/
def Packet.decEqList : (a b : List Packet) → Decidable (a = b)
  | [], [] => isTrue rfl
  | [], _ :: _ => isFalse (by simp)
  | _ :: _, [] => isFalse (by simp)
  | a :: as, b :: bs =>
    match Packet.decEq a b, Packet.decEqList as bs with
    | isTrue h1, isTrue h2 => isTrue (by rw [h1, h2])
    | isFalse h1, _ => isFalse (by intro h; injection h; contradiction)
    | isTrue _, isFalse h2 => isFalse (by intro h; injection h; contradiction)

end

instance : DecidableEq Packet := Packet.decEq

/-- The `version` field of a packet. -/
def Packet.version : Packet → Nat
  | .mk v _ _ => v

/-- The `message_type` field of a packet. -/
def Packet.messageType : Packet → MessageType
  | .mk _ mt _ => mt

/-- The `body` field of a packet (its direct subpackets). -/
def Packet.body : Packet → List Packet
  | .mk _ _ b => b

/-- `u64::MAX`. -/
def u64Max : Nat := 2 ^ 64 - 1

mutual

/-- `Packet::value` (day16/src/lib.rs), with the `panic!` arm of the three
comparison operators modelled as `none`; every other arm follows the Rust
folds (the `u64` sum and product wrap modulo `2 ^ 64`, the minimum fold
starts from `u64::MAX`, the maximum fold from `u64::MIN = 0`). -/
def Packet.value? : Packet → Option Nat
  | .mk _ (.literal v) _ => some v
  | .mk _ (.operator _ op) body =>
    match op with
    | .sum => (Packet.values? body).map (fun l => l.foldl (fun a n => (a + n) % 2 ^ 64) 0)
    | .product => (Packet.values? body).map (fun l => l.foldl (fun a n => (a * n) % 2 ^ 64) 1)
    | .minimum =>
      (Packet.values? body).map (fun l => l.foldl (fun a n => if n < a then n else a) u64Max)
    | .maximum =>
      (Packet.values? body).map (fun l => l.foldl (fun a n => if a < n then n else a) 0)
    | .greaterThan =>
      match body with
      | [a, b] =>
        match a.value?, b.value? with
        | some va, some vb => some (if vb < va then 1 else 0)
        | _, _ => none
      | _ => none
    | .lessThan =>
      match body with
      | [a, b] =>
        match a.value?, b.value? with
        | some va, some vb => some (if va < vb then 1 else 0)
        | _, _ => none
      | _ => none
    | .equalTo =>
      match body with
      | [a, b] =>
        match a.value?, b.value? with
        | some va, some vb => some (if va = vb then 1 else 0)
        | _, _ => none
      | _ => none

/-- The values of a list of subpackets, `none` as soon as one evaluation
panics. -/
def Packet.values? : List Packet → Option (List Nat)
  | [] => some []
  | p :: ps =>
    match p.value?, Packet.values? ps with
    | some v, some vs => some (v :: vs)
    | _, _ => none

end

/-- Result of running one of the day16 `from_iterator` functions on a bit
stream: a parsed value with the rest of the stream, a recoverable decode
failure (Rust `None`) with the stream as the failing parse left it, a
`panic!` / `expect` abort, or exhaustion of the modelling fuel. -/
inductive PRes (α : Type) where
  | ok : α → List Bool → PRes α
  | err : List Bool → PRes α
  | panicked : PRes α
  | spin : PRes α
deriving DecidableEq, Repr

/-- The numeric value of a big-endian binary digit string, as
`from_str_radix(_, 2)` computes it. -/
def binToNat (l : List Bool) : Nat :=
  l.foldl (fun acc b => 2 * acc + (if b then 1 else 0)) 0

/-- `PacketVersion::from_iterator` (day16/src/lib.rs): take up to 3 bits;
`from_str_radix` fails only when no bit at all was left. -/
def versionFromIterator (l : List Bool) : Option (Nat × List Bool) :=
  if l.take 3 = [] then none
  else some (binToNat (l.take 3), l.drop 3)

/-- The literal-value loop of `MessageType::from_iterator`: read groups of
up to 4 bits, each preceded by a continuation bit; a missing continuation
bit ends the loop. Returns the collected digit bits and the rest. -/
def literalGroups : List Bool → List Bool × List Bool
  | [] => ([], [])
  | false :: rest => (rest.take 4, rest.drop 4)
  | true :: b1 :: b2 :: b3 :: b4 :: rest =>
    let p := literalGroups rest
    (b1 :: b2 :: b3 :: b4 :: p.1, p.2)
  | true :: rest => (rest, [])

/-- `LengthType::from_iterator` (day16/src/lib.rs): the
`iterator.next().expect(..)` on an exhausted stream and the
`from_str_radix(..).expect(..)` on an empty 15/11-bit field are panics. -/
def lengthTypeFromIterator (l : List Bool) : PRes LengthType :=
  match l with
  | [] => .panicked
  | b :: rest =>
    if b then
      if rest.take 11 = [] then .panicked
      else .ok (.subpacketCount (binToNat (rest.take 11))) (rest.drop 11)
    else
      if rest.take 15 = [] then .panicked
      else .ok (.totalLengthInBits (binToNat (rest.take 15))) (rest.drop 15)

/-- `OperatorType::from_type_id` (day16/src/lib.rs). -/
def operatorTypeFromTypeId (n : Nat) : Option OperatorType :=
  match n with
  | 0 => some .sum
  | 1 => some .product
  | 2 => some .minimum
  | 3 => some .maximum
  | 5 => some .greaterThan
  | 6 => some .lessThan
  | 7 => some .equalTo
  | _ => none

/-- `MessageType::from_iterator` (day16/src/lib.rs): 3-bit type id (failing
only on an empty stream), then either the literal group loop (failing on an
empty digit string or a value not fitting in a `u64`) or the length type
and operator type. -/
def messageTypeFromIterator (l : List Bool) : PRes MessageType :=
  if l.take 3 = [] then .err (l.drop 3)
  else
    let tid := binToNat (l.take 3)
    let rest := l.drop 3
    if tid = 4 then
      let s := (literalGroups rest).1
      let rest2 := (literalGroups rest).2
      if s = [] then .err rest2
      else if 2 ^ 64 ≤ binToNat s then .err rest2
      else .ok (.literal (binToNat s)) rest2
    else
      match lengthTypeFromIterator rest with
      | .ok lt rest2 =>
        match operatorTypeFromTypeId tid with
        | some op => .ok (.operator lt op) rest2
        | none => .err rest2
      | .err r => .err r
      | .panicked => .panicked
      | .spin => .spin

mutual

/-- `Packet::from_iterator` (day16/src/lib.rs) on an explicit bit list.
The unbounded recursion through subpackets is indexed by fuel (`spin` =
fuel ran out; every statement proved below instantiates enough fuel). -/
def packetFromIterator : Nat → List Bool → PRes Packet
  | 0, _ => .spin
  | fuel + 1, l =>
    match versionFromIterator l with
    | none => .err (l.drop 3)
    | some (v, rest1) =>
      match messageTypeFromIterator rest1 with
      | .err r => .err r
      | .panicked => .panicked
      | .spin => .spin
      | .ok mt rest2 =>
        match mt with
        | .literal _ => .ok (.mk v mt []) rest2
        | .operator (.totalLengthInBits bits) _ =>
          match parseAllPackets fuel (rest2.take bits) with
          | .ok body _ => .ok (.mk v mt body) (rest2.drop bits)
          | .err r => .err r
          | .panicked => .panicked
          | .spin => .spin
        | .operator (.subpacketCount count) _ =>
          match parseCountPackets fuel count rest2 with
          | .ok body r => .ok (.mk v mt body) r
          | .err r => .err r
          | .panicked => .panicked
          | .spin => .spin
termination_by structural fuel => fuel

/-- The `while let Some(packet) = Packet::from_iterator(bytes)` loop of the
total-length branch: parse packets until one fails; the leftover of the
taken sub-stream is discarded by the caller. -/
def parseAllPackets : Nat → List Bool → PRes (List Packet)
  | 0, _ => .spin
  | fuel + 1, l =>
    match packetFromIterator fuel l with
    | .ok p r =>
      match parseAllPackets fuel r with
      | .ok ps r2 => .ok (p :: ps) r2
      | .err r2 => .err r2
      | .panicked => .panicked
      | .spin => .spin
    | .err r => .ok [] r
    | .panicked => .panicked
    | .spin => .spin
termination_by structural fuel => fuel

/-- The `for _ in 0..count` loop of the subpacket-count branch: a failed
parse is skipped (its consumed bits are lost) and the loop continues. -/
def parseCountPackets : Nat → Nat → List Bool → PRes (List Packet)
  | 0, _, _ => .spin
  | _ + 1, 0, l => .ok [] l
  | fuel + 1, count + 1, l =>
    match packetFromIterator fuel l with
    | .ok p r =>
      match parseCountPackets fuel count r with
      | .ok ps r2 => .ok (p :: ps) r2
      | .err r2 => .err r2
      | .panicked => .panicked
      | .spin => .spin
    | .err r =>
      match parseCountPackets fuel count r with
      | .ok ps r2 => .ok ps r2
      | .err r2 => .err r2
      | .panicked => .panicked
      | .spin => .spin
    | .panicked => .panicked
    | .spin => .spin
termination_by structural fuel => fuel

end

end Day16

/-
  Theorems.
-/

namespace Day18
namespace SnailFish

theorem numLeaves_pos (t : SnailFish) : 1 ≤ t.numLeaves := by
  induction t with
  | num n => simp [numLeaves]
  | pair a b iha ihb => simp only [numLeaves]; omega

theorem numLeaves_mapLeafIdx (t : SnailFish) (k : Nat) (f : Nat → Nat) :
    (mapLeafIdx t k f).numLeaves = t.numLeaves := by
  induction t generalizing k with
  | num n => cases k <;> simp [mapLeafIdx, numLeaves]
  | pair a b iha ihb =>
    by_cases h : k < a.numLeaves <;> simp [mapLeafIdx, h, numLeaves, iha, ihb]

theorem mapLeafIdx_zero_addLeftmost (t : SnailFish) (v : Nat) :
    mapLeafIdx t 0 (fun n => n + v) = t.addLeftmost v := by
  induction t with
  | num n => rfl
  | pair a b iha ihb =>
    rw [mapLeafIdx, if_pos (show 0 < a.numLeaves from numLeaves_pos a), iha, addLeftmost]

theorem mapLeafIdx_last_addRightmost (t : SnailFish) (v : Nat) :
    mapLeafIdx t (t.numLeaves - 1) (fun n => n + v) = t.addRightmost v := by
  induction t with
  | num n => rfl
  | pair a b iha ihb =>
    have ha := numLeaves_pos a
    have hb := numLeaves_pos b
    have hcond : ¬ ((SnailFish.pair a b).numLeaves - 1 < a.numLeaves) := by
      simp only [numLeaves]; omega
    rw [mapLeafIdx, if_neg hcond]
    have harith : (SnailFish.pair a b).numLeaves - 1 - a.numLeaves = b.numLeaves - 1 := by
      simp only [numLeaves]; omega
    rw [harith, ihb, addRightmost]

theorem subtree?_pairPaths (t : SnailFish) : ∀ (k : Nat) (pth : Path),
    pth ∈ pairPaths t k → ∃ x y, subtree? t pth = some (.pair x y) := by
  induction t with
  | num n => intro k pth h; simp [pairPaths] at h
  | pair a b iha ihb =>
    intro k pth h
    cases k with
    | zero =>
      simp [pairPaths] at h; subst h; exact ⟨a, b, rfl⟩
    | succ k =>
      simp only [pairPaths, List.mem_append, List.mem_map] at h
      rcases h with ⟨q, hq, rfl⟩ | ⟨q, hq, rfl⟩
      · simpa [subtree?] using iha k q hq
      · simpa [subtree?] using ihb k q hq

theorem leavesBefore_lt_replace (t : SnailFish) : ∀ (k : Nat) (pth : Path),
    pth ∈ pairPaths t k →
    leavesBefore t pth < (replaceAt t pth (.num 0)).numLeaves := by
  induction t with
  | num n => intro k pth h; simp [pairPaths] at h
  | pair a b iha ihb =>
    intro k pth h
    cases k with
    | zero =>
      simp [pairPaths] at h; subst h
      simp [leavesBefore, replaceAt, numLeaves]
    | succ k =>
      simp only [pairPaths, List.mem_append, List.mem_map] at h
      rcases h with ⟨q, hq, rfl⟩ | ⟨q, hq, rfl⟩
      · have h1 := iha k q hq
        have h2 := numLeaves_pos b
        simp only [leavesBefore, replaceAt, numLeaves]
        omega
      · have h1 := ihb k q hq
        simp only [leavesBefore, replaceAt, numLeaves]
        omega

theorem localExplode_nil (t x y : SnailFish) : localExplode t [] x y = .num 0 := by
  unfold localExplode
  cases hx : x.leafVal? <;> cases hy : y.leafVal? <;>
    simp [hx, hy, leavesBefore, replaceAt, numLeaves]

theorem specGo_nil (t : SnailFish) (k : Nat) (h : pairPaths t k = []) :
    specGo t k = none := by
  simp [specGo, h]

theorem localExplode_cons_false (a b x y : SnailFish) (q : Path)
    (hlt : leavesBefore a q < (replaceAt a q (.num 0)).numLeaves) :
    localExplode (.pair a b) (false :: q) x y =
      .pair (localExplode a q x y)
        (match (if leavesBefore a q + 1 < (replaceAt a q (.num 0)).numLeaves
                then none else y.leafVal?) with
         | some v => b.addLeftmost v
         | none => b) := by
  unfold localExplode
  simp only [leavesBefore, replaceAt, numLeaves]
  have hb1 := numLeaves_pos b
  set i := leavesBefore a q with hidef
  set a1 := replaceAt a q (.num 0) with ha1def
  cases hx : x.leafVal? with
  | none =>
    cases hy : y.leafVal? with
    | none => simp
    | some r =>
      have hout : i + 1 < a1.numLeaves + b.numLeaves := by omega
      by_cases hin : i + 1 < a1.numLeaves
      · simp [hout, hin, mapLeafIdx]
      · have hz : i + 1 - a1.numLeaves = 0 := by omega
        simp [hout, hin, mapLeafIdx, hz, mapLeafIdx_zero_addLeftmost]
  | some l =>
    cases hy : y.leafVal? with
    | none =>
      by_cases h1 : 1 ≤ i
      · have hi1 : i - 1 < a1.numLeaves := by omega
        simp [h1, hi1, mapLeafIdx]
      · simp [h1]
    | some r =>
      have hout : i + 1 < a1.numLeaves + b.numLeaves := by omega
      by_cases h1 : 1 ≤ i <;> by_cases hin : i + 1 < a1.numLeaves
      · have hi1 : i - 1 < a1.numLeaves := by omega
        simp [h1, hin, hout, hi1, mapLeafIdx, numLeaves_mapLeafIdx]
      · have hi1 : i - 1 < a1.numLeaves := by omega
        have hz : i + 1 - a1.numLeaves = 0 := by omega
        simp [h1, hin, hout, hi1, hz, mapLeafIdx, numLeaves_mapLeafIdx,
          mapLeafIdx_zero_addLeftmost]
      · simp [h1, hin, hout, mapLeafIdx]
      · have hz : i + 1 - a1.numLeaves = 0 := by omega
        simp [h1, hin, hout, mapLeafIdx, hz, mapLeafIdx_zero_addLeftmost]

theorem numLeaves_addLeftmost (t : SnailFish) (v : Nat) :
    (t.addLeftmost v).numLeaves = t.numLeaves := by
  induction t with
  | num n => rfl
  | pair a b iha ihb => simp [addLeftmost, numLeaves, iha]

theorem numLeaves_addRightmost (t : SnailFish) (v : Nat) :
    (t.addRightmost v).numLeaves = t.numLeaves := by
  induction t with
  | num n => rfl
  | pair a b iha ihb => simp [addRightmost, numLeaves, ihb]

theorem localExplode_cons_true (a b x y : SnailFish) (q : Path)
    (hlt : leavesBefore b q < (replaceAt b q (.num 0)).numLeaves) :
    localExplode (.pair a b) (true :: q) x y =
      .pair (match (if leavesBefore b q = 0 then x.leafVal? else none) with
             | some v => a.addRightmost v
             | none => a)
        (localExplode b q x y) := by
  unfold localExplode
  simp only [leavesBefore, replaceAt, numLeaves]
  have ha1 := numLeaves_pos a
  set i := leavesBefore b q with hidef
  set b1 := replaceAt b q (.num 0) with hb1def
  cases hx : x.leafVal? with
  | none =>
    cases hy : y.leafVal? with
    | none => simp
    | some r =>
      by_cases hin : i + 1 < b1.numLeaves
      · have hout : a.numLeaves + i + 1 < a.numLeaves + b1.numLeaves := by omega
        have hnin : ¬ (a.numLeaves + i + 1 < a.numLeaves) := by omega
        have hz : a.numLeaves + i + 1 - a.numLeaves = i + 1 := by omega
        simp [hin, hout, hnin, hz, mapLeafIdx]
      · have hout : ¬ (a.numLeaves + i + 1 < a.numLeaves + b1.numLeaves) := by omega
        simp [hin, hout]
  | some l =>
    have ht1 : 1 ≤ a.numLeaves + i := by omega
    by_cases hi0 : i = 0
    · have hroute : a.numLeaves + i - 1 < a.numLeaves := by omega
      have hz2 : a.numLeaves + i - 1 = a.numLeaves - 1 := by omega
      have hnile : ¬ (1 ≤ i) := by omega
      have ha0 : 0 < a.numLeaves := ha1
      have hroute2 : a.numLeaves - 1 < a.numLeaves := by omega
      rw [if_pos hi0]
      cases hy : y.leafVal? with
      | none =>
        simp [ht1, hnile, ha0, hroute2, mapLeafIdx, hroute, hz2,
          mapLeafIdx_last_addRightmost]
      | some r =>
        by_cases hin : i + 1 < b1.numLeaves
        · have hout : a.numLeaves + i + 1 < a.numLeaves + b1.numLeaves := by omega
          have hnin : ¬ (a.numLeaves + i + 1 < a.numLeaves) := by omega
          have hz : a.numLeaves + i + 1 - a.numLeaves = i + 1 := by omega
          simp [ht1, hnile, hin, ha0, hroute2, mapLeafIdx, hroute, hz2, hout, hnin,
            hz, mapLeafIdx_last_addRightmost, numLeaves_addRightmost]
        · have hout : ¬ (a.numLeaves + i + 1 < a.numLeaves + b1.numLeaves) := by omega
          simp [ht1, hnile, hin, ha0, hroute2, mapLeafIdx, hroute, hz2, hout,
            mapLeafIdx_last_addRightmost]
    · have hige : 1 ≤ i := by omega
      have hroute : ¬ (a.numLeaves + i - 1 < a.numLeaves) := by omega
      have hz2 : a.numLeaves + i - 1 - a.numLeaves = i - 1 := by omega
      rw [if_neg hi0]
      cases hy : y.leafVal? with
      | none =>
        simp [ht1, hige, mapLeafIdx, hroute, hz2]
      | some r =>
        by_cases hin : i + 1 < b1.numLeaves
        · have hout : a.numLeaves + i + 1 < a.numLeaves + b1.numLeaves := by omega
          have hnin : ¬ (a.numLeaves + i + 1 < a.numLeaves) := by omega
          have hz : a.numLeaves + i + 1 - a.numLeaves = i + 1 := by omega
          simp [ht1, hige, hin, mapLeafIdx, hroute, hz2, hout, hnin, hz,
            numLeaves_mapLeafIdx]
        · have hout : ¬ (a.numLeaves + i + 1 < a.numLeaves + b1.numLeaves) := by omega
          simp [ht1, hige, hin, mapLeafIdx, hroute, hz2, hout]

theorem explodeGo_eq_specGo (t : SnailFish) : ∀ d : Nat, d ≤ 4 →
    explodeGo t d = specGo t (4 - d) := by
  induction t with
  | num n => intro d hd; simp [explodeGo, specGo, pairPaths]
  | pair a b iha ihb =>
    intro d hd
    by_cases h4 : 4 ≤ d
    · have hd0 : 4 - d = 0 := by omega
      rw [hd0]
      simp only [explodeGo, if_pos h4, specGo, pairPaths, List.head?,
        subtree?, leavesBefore, replaceAt, numLeaves]
      simp [localExplode_nil]
    · have hk : 4 - d = (4 - (d + 1)) + 1 := by omega
      have ha := iha (d + 1) (by omega)
      have hb := ihb (d + 1) (by omega)
      rw [hk]
      set k := 4 - (d + 1) with hkdef
      simp only [explodeGo]
      rw [if_neg h4, ha, hb]
      cases hpa : pairPaths a k with
      | cons q qs =>
        have hq : q ∈ pairPaths a k := by rw [hpa]; exact List.mem_cons_self q qs
        obtain ⟨x, y, hsub⟩ := subtree?_pairPaths a k q hq
        have hlt := leavesBefore_lt_replace a k q hq
        have hsa : specGo a k = some
            (if leavesBefore a q = 0 then x.leafVal? else none,
             localExplode a q x y,
             if leavesBefore a q + 1 < (replaceAt a q (.num 0)).numLeaves then none
             else y.leafVal?) := by
          simp [specGo, hpa, hsub]
        have hst : specGo (.pair a b) (k + 1) = some
            (if leavesBefore a q = 0 then x.leafVal? else none,
             localExplode (.pair a b) (false :: q) x y,
             if leavesBefore a q + 1 < (replaceAt a q (.num 0)).numLeaves + b.numLeaves
             then none else y.leafVal?) := by
          simp [specGo, pairPaths, hpa, subtree?, hsub, leavesBefore, replaceAt,
            numLeaves]
        rw [hsa, hst]
        dsimp only
        rw [localExplode_cons_false a b x y q hlt]
        have hc : leavesBefore a q + 1 < (replaceAt a q (.num 0)).numLeaves + b.numLeaves := by
          have := numLeaves_pos b; omega
        rw [if_pos hc]
      | nil =>
        have hsa : specGo a k = none := specGo_nil a k hpa
        rw [hsa]
        cases hpb : pairPaths b k with
        | nil =>
          have hsb := specGo_nil b k hpb
          have hst : specGo (.pair a b) (k + 1) = none := by
            apply specGo_nil
            simp [pairPaths, hpa, hpb]
          rw [hsb, hst]
        | cons q qs =>
          have hq : q ∈ pairPaths b k := by rw [hpb]; exact List.mem_cons_self q qs
          obtain ⟨x, y, hsub⟩ := subtree?_pairPaths b k q hq
          have hlt := leavesBefore_lt_replace b k q hq
          have hsb : specGo b k = some
              (if leavesBefore b q = 0 then x.leafVal? else none,
               localExplode b q x y,
               if leavesBefore b q + 1 < (replaceAt b q (.num 0)).numLeaves then none
               else y.leafVal?) := by
            simp [specGo, hpb, hsub]
          have hst : specGo (.pair a b) (k + 1) = some
              (if a.numLeaves + leavesBefore b q = 0 then x.leafVal? else none,
               localExplode (.pair a b) (true :: q) x y,
               if a.numLeaves + leavesBefore b q + 1 <
                   a.numLeaves + (replaceAt b q (.num 0)).numLeaves
               then none else y.leafVal?) := by
            simp [specGo, pairPaths, hpa, hpb, subtree?, hsub, leavesBefore,
              replaceAt, numLeaves]
          rw [hsb, hst]
          dsimp only
          rw [localExplode_cons_true a b x y q hlt]
          have hc1 : ¬ (a.numLeaves + leavesBefore b q = 0) := by
            have := numLeaves_pos a; omega
          rw [if_neg hc1]
          have hc3 : (a.numLeaves + leavesBefore b q + 1 <
              a.numLeaves + (replaceAt b q (.num 0)).numLeaves) ↔
              (leavesBefore b q + 1 < (replaceAt b q (.num 0)).numLeaves) := by
            omega
          rw [if_congr hc3 rfl rfl]

/-- Helper for C7: a tree returned by the reduce loop admits neither an
explosion nor a split. -/
theorem reduceF_fixed (n : Nat) (t r : SnailFish) (h : reduceF n t = some r) :
    r.explodeStep = none ∧ r.splitStep = none := by
  induction n generalizing t with
  | zero => simp [reduceF] at h
  | succ n ih =>
    rw [reduceF] at h
    cases he : t.explodeStep with
    | some t2 => rw [he] at h; exact ih t2 h
    | none =>
      rw [he] at h
      cases hs : t.splitStep with
      | some t2 => rw [hs] at h; exact ih t2 h
      | none =>
        rw [hs] at h
        simp only [Option.some.injEq] at h
        subst h
        exact ⟨he, hs⟩

end SnailFish

/-- C2 (counterexample): on `[[[[[[1,2],3],4],5],6],7]` the code explodes
the depth-4 pair `[[1,2],3]` (whose left child is not a leaf), discarding
the nested `[1,2]` and adding `3` to the leaf `4`, whereas the claim
prescribes exploding the depth-5 leaf pair `[1,2]`; the two results
differ. -/
theorem c2_counterexample :
    SnailFish.explodeStep cexTree ≠ claimExplodeStep cexTree ∧
    SnailFish.explodeStep cexTree =
      some (.pair (.pair (.pair (.pair (.num 0) (.num 7)) (.num 5)) (.num 6))
        (.num 7)) ∧
    claimExplodeStep cexTree =
      some (.pair (.pair (.pair (.pair (.pair (.num 0) (.num 5)) (.num 4))
        (.num 5)) (.num 6)) (.num 7)) :=
  ⟨by decide, by decide, by decide⟩

/-- C2 (amended): `explode` locates the leftmost pair node at depth exactly
4 (its children need not be leaves); it replaces that whole subtree by
`Leaf 0`, adds the left (resp. right) child's value to the nearest leaf
strictly to the left (resp. right) in in-order traversal only when that
child is itself a leaf and such a neighbour exists, performs no other
change and reports an explosion; when no pair at depth ≥ 4 exists it
reports `false` and leaves the tree unchanged. -/
theorem c2_explode_amended (t : SnailFish) :
    t.explodeStep = SnailFish.amendedExplode t := by
  have h := SnailFish.explodeGo_eq_specGo t 0 (by omega)
  norm_num at h
  rw [SnailFish.explodeStep, h, SnailFish.specGo, SnailFish.amendedExplode]
  cases hp : (SnailFish.pairPaths t 4).head? with
  | none => rfl
  | some pth =>
    cases hsub : SnailFish.subtree? t pth with
    | none => simp [hsub]
    | some s =>
      cases s with
      | num n => simp [hsub]
      | pair x y => simp [hsub]

/-- C7: when the reduce loop terminates on `t` with result `r`, running it
again on `r` returns `r` unchanged — `reduce` is idempotent. -/
theorem c7_reduce_idempotent (n : Nat) (t r : SnailFish)
    (h : SnailFish.reduceF n t = some r) :
    ∀ m, 1 ≤ m → SnailFish.reduceF m r = some r := by
  obtain ⟨he, hs⟩ := SnailFish.reduceF_fixed n t r h
  intro m hm
  obtain ⟨m2, rfl⟩ : ∃ m2, m = m2 + 1 := ⟨m - 1, by omega⟩
  rw [SnailFish.reduceF, he, hs]

/-- Witness for C7 at the concrete tree `[1,2]`. -/
theorem c7_witness :
    SnailFish.reduceF 1 (.pair (.num 1) (.num 2)) =
      some (.pair (.num 1) (.num 2)) :=
  c7_reduce_idempotent 1 (.pair (.num 1) (.num 2)) (.pair (.num 1) (.num 2))
    (by decide) 1 (by decide)

/-- C8 (counterexample): the magnitude of the single-leaf tree `0` is 0,
below its leaf count 1. -/
theorem c8_counterexample :
    ¬ (SnailFish.numLeaves (.num 0) ≤ SnailFish.magnitude (.num 0)) := by
  decide

/-- C8 (amended): for every snail number all of whose leaf values are
positive, the magnitude is at least the number of leaves. -/
theorem c8_magnitude_ge_numLeaves (t : SnailFish) (h : t.leavesPos = true) :
    t.numLeaves ≤ t.magnitude := by
  induction t with
  | num n =>
    simp only [SnailFish.leavesPos, decide_eq_true_eq] at h
    simpa [SnailFish.numLeaves, SnailFish.magnitude] using h
  | pair a b iha ihb =>
    simp only [SnailFish.leavesPos, Bool.and_eq_true] at h
    have h1 := iha h.1
    have h2 := ihb h.2
    simp only [SnailFish.numLeaves, SnailFish.magnitude]
    omega

/-- Witness for C8 at the concrete tree `[1,2]`. -/
theorem c8_witness :
    SnailFish.numLeaves (.pair (.num 1) (.num 2)) ≤
      SnailFish.magnitude (.pair (.num 1) (.num 2)) :=
  c8_magnitude_ge_numLeaves (.pair (.num 1) (.num 2)) (by decide)

end Day18

namespace Day15

theorem coe_filterMapIte {α β : Type} (l : List α) (c : α → Prop) [DecidablePred c]
    (f : α → β) :
    (↑(l.filterMap (fun x => if c x then none else some (f x))) : Multiset β) =
    (↑l : Multiset α).bind (fun x => if c x then 0 else {f x}) := by
  induction l with
  | nil => simp
  | cons a l ih =>
    by_cases hc : c a
    · simp only [List.filterMap_cons, hc, if_pos, ← Multiset.cons_coe,
        Multiset.cons_bind, ih]
      simp [hc]
    · simp only [List.filterMap_cons, hc, ← Multiset.cons_coe,
        Multiset.cons_bind, ih]
      simp [hc, ← Multiset.cons_coe]
      exact ih

theorem bind_range_ite {β : Type} (T : Nat) (u : Multiset β) (g : Nat → Nat → Multiset β) :
    ((↑(List.range (T+1)) : Multiset Nat).bind fun sy =>
      (↑(List.range (T+1)) : Multiset Nat).bind fun sx =>
        if sy = 0 ∧ sx = 0 then u else g sx sy) =
    u + ((↑(List.range (T+1)) : Multiset Nat).bind fun sy =>
      (↑(List.range (T+1)) : Multiset Nat).bind fun sx =>
        if sy = 0 ∧ sx = 0 then 0 else g sx sy) := by
  have hM : ∀ a ∈ (↑((List.range T).map Nat.succ) : Multiset Nat), a ≠ 0 := by
    intro a ha
    simp only [Multiset.mem_coe, List.mem_map] at ha
    obtain ⟨b, _, rfl⟩ := ha
    simp
  rw [List.range_succ_eq_map]
  rw [← Multiset.cons_coe]
  set M := (↑((List.range T).map Nat.succ) : Multiset Nat) with hMdef
  simp only [Multiset.cons_bind]
  simp only [eq_self_iff_true, true_and, and_true, and_self, if_true]
  have e1 : ∀ (v : Multiset β), (M.bind fun sx => if sx = 0 then v else g sx 0) =
      M.bind (fun sx => g sx 0) := by
    intro v
    refine Multiset.bind_congr (fun a ha => ?_)
    rw [if_neg (hM a ha)]
  have e2 : ∀ (v : Multiset β), (M.bind fun sy => (if sy = 0 then v else g 0 sy) +
      M.bind fun sx => if sy = 0 ∧ sx = 0 then v else g sx sy) =
      M.bind (fun sy => g 0 sy + M.bind fun sx => g sx sy) := by
    intro v
    refine Multiset.bind_congr (fun a ha => ?_)
    rw [if_neg (hM a ha)]
    congr 1
    refine Multiset.bind_congr (fun b hb => ?_)
    rw [if_neg (by simp [hM a ha])]
  rw [e1, e2, e1, e2]
  simp [add_assoc]


theorem scale_zero (i : Input) : i.scale 0 = i := by
  cases i with
  | mk pts => simp [Input.scale]

theorem scale_amended_succ (i : Input) (T : Nat) :
    Multiset.ofList (i.scale (T + 1)).points = amendedScaled i (T + 1) := by
  have transform_eq : ∀ (p : Point) (sx sy : Nat),
      (if sy = 0 ∧ sx = 0 then (0 : Multiset Point)
       else {({ x := p.x + i.getWidth * sx, y := p.y + i.getHeight * sy,
                value := (p.value + sx + sy - 1) % 9 + 1 } : Point)}) =
      (if sy = 0 ∧ sx = 0 then 0
       else {({ x := p.x + i.getWidth * sx, y := p.y + i.getHeight * sy,
                value := (((p.value : Int) - 1 + sx + sy) % 9 + 1).toNat } : Point)}) := by
    intro p sx sy
    by_cases hc : sy = 0 ∧ sx = 0
    · simp [hc]
    · simp only [if_neg hc]
      have hv : (p.value + sx + sy - 1) % 9 + 1 =
          (((p.value : Int) - 1 + sx + sy) % 9 + 1).toNat := by omega
      rw [hv]
  have lhs_eq : Multiset.ofList (i.scale (T + 1)).points =
      (↑i.points : Multiset Point) +
      (↑i.points : Multiset Point).bind (fun p =>
        (↑(List.range (T + 1)) : Multiset Nat).bind (fun sy =>
          (↑(List.range (T + 1)) : Multiset Nat).bind (fun sx =>
            if sy = 0 ∧ sx = 0 then 0
            else {({ x := p.x + i.getWidth * sx, y := p.y + i.getHeight * sy,
                     value := (p.value + sx + sy - 1) % 9 + 1 } : Point)}))) := by
    simp only [Input.scale]
    rw [← Multiset.coe_add]
    simp only [← Multiset.coe_bind, coe_filterMapIte]
  have flip : ∀ (bx by2 : Nat) (u v : Multiset Point),
      (if bx = 0 ∧ by2 = 0 then u else v) = (if by2 = 0 ∧ bx = 0 then u else v) :=
    fun bx by2 u v => if_congr and_comm rfl rfl
  have rhs_eq : amendedScaled i (T + 1) =
      (↑(List.range (T + 1)) : Multiset Nat).bind (fun sy =>
        (↑(List.range (T + 1)) : Multiset Nat).bind (fun sx =>
          (↑i.points : Multiset Point).bind (fun p =>
            if sy = 0 ∧ sx = 0 then {p}
            else {({ x := p.x + i.getWidth * sx, y := p.y + i.getHeight * sy,
                     value := (((p.value : Int) - 1 + sx + sy) % 9 + 1).toNat } : Point)}))) := by
    unfold amendedScaled
    simp only [← Multiset.coe_bind]
    refine Multiset.bind_congr (fun by2 _ => ?_)
    refine Multiset.bind_congr (fun bx _ => ?_)
    have : Multiset.ofList (i.points.map (fun p =>
        if bx = 0 ∧ by2 = 0 then p
        else { x := p.x + i.getWidth * bx, y := p.y + i.getHeight * by2,
               value := (((p.value : Int) - 1 + bx + by2) % 9 + 1).toNat })) =
        (↑i.points : Multiset Point).map (fun p =>
          if bx = 0 ∧ by2 = 0 then p
          else { x := p.x + i.getWidth * bx, y := p.y + i.getHeight * by2,
                 value := (((p.value : Int) - 1 + bx + by2) % 9 + 1).toNat }) := rfl
    rw [this, ← Multiset.bind_singleton]
    refine Multiset.bind_congr (fun p _ => ?_)
    rw [apply_ite (fun q => ({q} : Multiset Point)), flip]
  rw [lhs_eq, rhs_eq]
  simp only [transform_eq]
  have hA : (↑i.points : Multiset Point) =
      (↑i.points : Multiset Point).bind (fun p => {p}) := by
    rw [Multiset.bind_singleton, Multiset.map_id']
  nth_rewrite 1 [hA]
  rw [← Multiset.bind_add]
  have hper : ∀ p : Point,
      ({p} : Multiset Point) +
        ((↑(List.range (T + 1)) : Multiset Nat).bind fun sy =>
          (↑(List.range (T + 1)) : Multiset Nat).bind fun sx =>
            if sy = 0 ∧ sx = 0 then 0
            else {({ x := p.x + i.getWidth * sx, y := p.y + i.getHeight * sy,
                     value := (((p.value : Int) - 1 + sx + sy) % 9 + 1).toNat } : Point)}) =
        ((↑(List.range (T + 1)) : Multiset Nat).bind fun sy =>
          (↑(List.range (T + 1)) : Multiset Nat).bind fun sx =>
            if sy = 0 ∧ sx = 0 then {p}
            else {({ x := p.x + i.getWidth * sx, y := p.y + i.getHeight * sy,
                     value := (((p.value : Int) - 1 + sx + sy) % 9 + 1).toNat } : Point)}) :=
    fun p => (bind_range_ite T {p} _).symm
  rw [Multiset.bind_congr (fun p _ => hper p)]
  conv_lhs => rw [Multiset.bind_bind]
  refine Multiset.bind_congr (fun sy _ => ?_)
  conv_lhs => rw [Multiset.bind_bind]


theorem parseRow_isSome_iff (y : Nat) : ∀ (x : Nat) (l : List Char),
    (parseRow y x l).isSome = true ↔ ∀ c ∈ l, c.isDigit = true := by
  intro x l
  induction l generalizing x with
  | nil => simp [parseRow]
  | cons c cs ih =>
    simp only [parseRow, charToDigit?]
    by_cases hc : c.isDigit
    · simp [hc, ih (x + 1)]
    · simp [hc]

theorem parseRow_eq_cells (y : Nat) : ∀ (x : Nat) (l : List Char) (ps : List Point),
    parseRow y x l = some ps →
    ps = (l.enumFrom x).filterMap
      (fun cx => (charToDigit? cx.2).map (fun v => ⟨cx.1, y, v⟩)) := by
  intro x l
  induction l generalizing x with
  | nil =>
    intro ps h
    simp [parseRow] at h
    simp [← h]
  | cons c cs ih =>
    intro ps h
    simp only [parseRow] at h
    cases hc : charToDigit? c with
    | none => rw [hc] at h; simp at h
    | some v =>
      rw [hc] at h
      cases hrec : parseRow y (x + 1) cs with
      | none => rw [hrec] at h; simp at h
      | some ps2 =>
        rw [hrec] at h
        simp only [Option.map_some', Option.some.injEq] at h
        have hrest := ih (x + 1) ps2 hrec
        simp [← h, List.enumFrom, hc, hrest]

theorem parseGrid_isSome_iff : ∀ (y : Nat) (ls : List (List Char)),
    (parseGrid y ls).isSome = true ↔ ∀ l ∈ ls, ∀ c ∈ l, c.isDigit = true := by
  intro y ls
  induction ls generalizing y with
  | nil => simp [parseGrid]
  | cons l ls ih =>
    simp only [parseGrid]
    cases hr : parseRow y 0 l with
    | none =>
      have : ¬ ((parseRow y 0 l).isSome = true) := by simp [hr]
      rw [parseRow_isSome_iff y 0 l] at this
      simp [this]
    | some ps =>
      have hsome : (parseRow y 0 l).isSome = true := by simp [hr]
      rw [parseRow_isSome_iff y 0 l] at hsome
      simp [hsome, ih (y + 1)]
      intro _
      exact hsome

theorem parseGrid_eq_cells : ∀ (y : Nat) (ls : List (List Char)) (ps : List Point),
    parseGrid y ls = some ps →
    ps = (ls.enumFrom y).flatMap
      (fun ly => (ly.2.enum).filterMap
        (fun cx => (charToDigit? cx.2).map (fun v => ⟨cx.1, ly.1, v⟩))) := by
  intro y ls
  induction ls generalizing y with
  | nil =>
    intro ps h
    simp [parseGrid] at h
    simp [← h]
  | cons l ls ih =>
    intro ps h
    simp only [parseGrid] at h
    cases hr : parseRow y 0 l with
    | none => rw [hr] at h; simp at h
    | some ps1 =>
      rw [hr] at h
      cases hrec : parseGrid (y + 1) ls with
      | none => rw [hrec] at h; simp at h
      | some ps2 =>
        rw [hrec] at h
        simp only [Option.map_some', Option.some.injEq] at h
        have h1 := parseRow_eq_cells y 0 l ps1 hr
        have h2 := ih (y + 1) ps2 hrec
        simp [← h, List.enumFrom, h1, h2, List.enum]


/-- C9: scaling only appends cells: the point list after `scale` is the
original list followed by the new copies, so every original cell is still
present, unchanged, and none is removed. -/
theorem c9_scale_frame :
    (∀ (i : Input) (times : Nat), ∃ app, (i.scale times).points = i.points ++ app) ∧
    (∀ (i : Input) (times : Nat) (p : Point),
      p ∈ i.points → p ∈ (i.scale times).points) := by
  refine ⟨fun i times => ⟨_, rfl⟩, fun i times p hp => ?_⟩
  show p ∈ i.points ++ _
  exact List.mem_append_left _ hp

/-- Witness for C9 at a concrete one-cell grid. -/
theorem c9_witness :
    (⟨0, 0, 5⟩ : Point) ∈ ((Input.mk [⟨0, 0, 5⟩]).scale 2).points :=
  c9_scale_frame.2 (Input.mk [⟨0, 0, 5⟩]) 2 ⟨0, 0, 5⟩ (by decide)

/-- C3 (counterexample): on the 1×1 grid holding the digit cost 0, the
claimed transform gives the block-(0,0) copy the cost
`((0 - 1 + 0 + 0) mod 9) + 1 = 9`, but `scale` keeps the original cell with
cost 0, so the scaled grid is not the claimed tiling. -/
theorem c3_counterexample :
    Multiset.ofList ((Input.mk [⟨0, 0, 0⟩]).scale 1).points ≠
      claimScaled (Input.mk [⟨0, 0, 0⟩]) 1 := by decide

/-- C3 (amended): scaling by factor 0 leaves the grid unchanged, and for
every factor ≥ 1 the scaled grid is exactly (as a multiset of cells) the
factor × factor tiling in which the block at offset (0,0) keeps the
original cells unchanged — which agrees with the claimed formula
`((c - 1 + bx + by) mod 9) + 1` whenever `c ≥ 1` but not for `c = 0` — and
every other block `(bx, by)` applies that formula. -/
theorem c3_scale_amended :
    (∀ i : Input, i.scale 0 = i) ∧
    (∀ (i : Input) (times : Nat), 1 ≤ times →
      Multiset.ofList (i.scale times).points = amendedScaled i times) := by
  refine ⟨scale_zero, fun i times ht => ?_⟩
  obtain ⟨T, rfl⟩ : ∃ T, times = T + 1 := ⟨times - 1, by omega⟩
  exact scale_amended_succ i T

/-- Witness for C3 (amended) at a concrete grid and factor 2. -/
theorem c3_witness :
    Multiset.ofList ((Input.mk [⟨0, 0, 3⟩]).scale 2).points =
      amendedScaled (Input.mk [⟨0, 0, 3⟩]) 2 :=
  c3_scale_amended.2 (Input.mk [⟨0, 0, 3⟩]) 2 (by decide)

/-- C6 (counterexample): the empty input text parses successfully to the
empty grid, and the ragged text "1\n22" parses successfully to a
non-rectangular grid with no cell at (1,0) — the parser never raises the
claimed error. -/
theorem c6_counterexample :
    inputFromStr [] = some (Input.mk []) ∧
    inputFromStr [ '1', '\n', '2', '2'] =
      some (Input.mk [⟨0, 0, 1⟩, ⟨0, 1, 2⟩, ⟨1, 1, 2⟩]) := by
  exact ⟨by decide, by decide⟩

/-- C6 (amended): grid parsing fails exactly when some character of some
line is not a decimal digit; every accepted input yields the grid holding
one cell per character, at the character's (column, line) position, with no
emptiness or rectangularity requirement. -/
theorem c6_parse_amended (s : List Char) :
    ((inputFromStr s).isSome = true ↔
      ∀ l ∈ rustLines s, ∀ c ∈ l, c.isDigit = true) ∧
    (∀ i : Input, inputFromStr s = some i → i.points = specCells (rustLines s)) := by
  constructor
  · rw [inputFromStr, Option.isSome_map']
    exact parseGrid_isSome_iff 0 (rustLines s)
  · intro i h
    rw [inputFromStr] at h
    cases hg : parseGrid 0 (rustLines s) with
    | none => rw [hg] at h; simp at h
    | some ps =>
      rw [hg] at h
      simp only [Option.map_some', Option.some.injEq] at h
      have hcells := parseGrid_eq_cells 0 (rustLines s) ps hg
      rw [← h]
      simpa [specCells, List.enum, List.enumFrom] using hcells

/-- Witness for C6 (amended) at the one-character input "7". -/
theorem c6_amended_witness :
    ((inputFromStr [ '7']).isSome = true ↔
      ∀ l ∈ rustLines [ '7'], ∀ c ∈ l, c.isDigit = true) ∧
    (Input.mk [⟨0, 0, 7⟩]).points = specCells (rustLines [ '7']) :=
  ⟨(c6_parse_amended [ '7']).1,
    (c6_parse_amended [ '7']).2 (Input.mk [⟨0, 0, 7⟩]) (by decide)⟩

end Day15

namespace Day16

/-- C4: for a GreaterThan / LessThan / EqualTo operator packet with
exactly two children `a` and `b`, `value` returns 1 when the comparison of
the children's values holds and 0 otherwise; with any other number of
children evaluation takes the fatal `panic!` branch (modelled `none`)
instead of returning a value. -/
theorem c4_comparison_ops (v : Nat) (lt : LengthType) (a b : Packet) (va vb : Nat)
    (ha : a.value? = some va) (hb : b.value? = some vb) :
    ((Packet.mk v (.operator lt .greaterThan) [a, b]).value? =
        some (if vb < va then 1 else 0)) ∧
    ((Packet.mk v (.operator lt .lessThan) [a, b]).value? =
        some (if va < vb then 1 else 0)) ∧
    ((Packet.mk v (.operator lt .equalTo) [a, b]).value? =
        some (if va = vb then 1 else 0)) ∧
    (∀ body : List Packet, body.length ≠ 2 →
      ((Packet.mk v (.operator lt .greaterThan) body).value? = none ∧
       (Packet.mk v (.operator lt .lessThan) body).value? = none ∧
       (Packet.mk v (.operator lt .equalTo) body).value? = none)) := by
  refine ⟨by simp [Packet.value?, ha, hb], by simp [Packet.value?, ha, hb],
    by simp [Packet.value?, ha, hb], ?_⟩
  intro body hlen
  match body, hlen with
  | [], _ => exact ⟨rfl, rfl, rfl⟩
  | [x], _ => exact ⟨rfl, rfl, rfl⟩
  | x :: y :: z :: rest, _ => exact ⟨rfl, rfl, rfl⟩
  | [x, y], h => exact absurd rfl h

/-- Witness for C4: a concrete GreaterThan packet over literals 1 and 0. -/
theorem c4_witness :
    (Packet.mk 0 (.operator (.totalLengthInBits 22) .greaterThan)
      [.mk 0 (.literal 1) [], .mk 0 (.literal 0) []]).value? = some 1 := by
  have h := (c4_comparison_ops 0 (.totalLengthInBits 22) (.mk 0 (.literal 1) [])
    (.mk 0 (.literal 0) []) 1 0 (by simp [Packet.value?]) (by simp [Packet.value?])).1
  simpa using h

/-- C10: an operator packet with an empty child list evaluates totally to
the fold identity: Sum ↦ 0, Product ↦ 1, Minimum ↦ u64::MAX = 2^64 - 1,
Maximum ↦ u64::MIN = 0, with no panic. -/
theorem c10_empty_operator (v : Nat) (lt : LengthType) :
    ((Packet.mk v (.operator lt .sum) []).value? = some 0) ∧
    ((Packet.mk v (.operator lt .product) []).value? = some 1) ∧
    ((Packet.mk v (.operator lt .minimum) []).value? = some (2 ^ 64 - 1)) ∧
    ((Packet.mk v (.operator lt .maximum) []).value? = some 0) := by
  refine ⟨?_, ?_, ?_, ?_⟩ <;> simp [Packet.value?, Packet.values?, u64Max]

/-- C5 (counterexample): on the 8-bit stream 11010010 the final 5-bit
literal group has only 2 bits left, yet decoding returns a packet
(`Literal 0`, version 6) instead of failing with an error: the decoder
parses short fields from whatever bits remain. -/
theorem c5_counterexample :
    packetFromIterator 9 [true, true, false, true, false, false, true, false] =
      .ok (.mk 6 (.literal 0) []) [] := by
  decide

/-- The numeric value of an n-bit string is below 2^n. -/
theorem binToNat_lt (l : List Bool) : binToNat l < 2 ^ l.length := by
  suffices h : ∀ (acc : Nat),
      l.foldl (fun a b => 2 * a + (if b then 1 else 0)) acc < (acc + 1) * 2 ^ l.length by
    simpa [binToNat] using h 0
  induction l with
  | nil => intro acc; simp
  | cons b t ih =>
    intro acc
    simp only [List.foldl_cons, List.length_cons, pow_succ]
    have h1 := ih (2 * acc + (if b then 1 else 0))
    have h2 : (2 * acc + (if b then 1 else 0) + 1) * 2 ^ t.length ≤
        (acc + 1) * (2 ^ t.length * 2) := by
      have hb : (if b then 1 else 0) ≤ 1 := by split <;> omega
      have hle : (2 * acc + (if b then 1 else 0) + 1) ≤ (acc + 1) * 2 := by omega
      calc (2 * acc + (if b then 1 else 0) + 1) * 2 ^ t.length
          ≤ ((acc + 1) * 2) * 2 ^ t.length := Nat.mul_le_mul_right _ hle
        _ = (acc + 1) * (2 ^ t.length * 2) := by ring
    omega

theorem parse_loops_ne_err (fuel : Nat) :
    (∀ l r, parseAllPackets fuel l ≠ PRes.err r) ∧
    (∀ count l r, parseCountPackets fuel count l ≠ PRes.err r) := by
  induction fuel with
  | zero =>
    constructor
    · intro l r h
      simp [parseAllPackets] at h
    · intro count l r h
      simp [parseCountPackets] at h
  | succ fuel ih =>
    constructor
    · intro l r h
      simp only [parseAllPackets] at h
      cases hp : packetFromIterator fuel l with
      | ok p rest =>
        rw [hp] at h
        cases hq : parseAllPackets fuel rest with
        | ok ps r2 => simp [hq] at h
        | err r2 => exact ih.1 rest r2 hq
        | panicked => simp [hq] at h
        | spin => simp [hq] at h
      | err r2 => simp [hp] at h
      | panicked => simp [hp] at h
      | spin => simp [hp] at h
    · intro count l r h
      cases count with
      | zero => simp [parseCountPackets] at h
      | succ count =>
        simp only [parseCountPackets] at h
        cases hp : packetFromIterator fuel l with
        | ok p rest =>
          rw [hp] at h
          cases hq : parseCountPackets fuel count rest with
          | ok ps r2 => simp [hq] at h
          | err r2 => exact ih.2 count rest r2 hq
          | panicked => simp [hq] at h
          | spin => simp [hq] at h
        | err rest =>
          rw [hp] at h
          cases hq : parseCountPackets fuel count rest with
          | ok ps r2 => simp [hq] at h
          | err r2 => exact ih.2 count rest r2 hq
          | panicked => simp [hq] at h
          | spin => simp [hq] at h
        | panicked => simp [hp] at h
        | spin => simp [hp] at h

theorem lengthType_cases (l : List Bool) :
    (∃ lt r, lengthTypeFromIterator l = PRes.ok lt r) ∨
      lengthTypeFromIterator l = PRes.panicked := by
  unfold lengthTypeFromIterator
  cases l with
  | nil => exact Or.inr rfl
  | cons b rest =>
    cases b with
    | false =>
      by_cases h : rest.take 15 = []
      · simp only [Bool.false_eq_true, if_false, if_pos h]
        exact Or.inr trivial
      · simp only [Bool.false_eq_true, if_false, if_neg h]
        exact Or.inl ⟨_, _, rfl⟩
    | true =>
      by_cases h : rest.take 11 = []
      · simp only [if_true, if_pos h]
        exact Or.inr trivial
      · simp only [if_true, if_neg h]
        exact Or.inl ⟨_, _, rfl⟩


set_option maxRecDepth 4000 in
theorem packet_err_iff (fuel : Nat) (l : List Bool) :
    (∃ r, packetFromIterator (fuel + 1) l = PRes.err r) ↔
      (l.length ≤ 3 ∨
        (binToNat ((l.drop 3).take 3) = 4 ∧
          ((literalGroups (l.drop 6)).1 = [] ∨
            2 ^ 64 ≤ binToNat (literalGroups (l.drop 6)).1))) := by
  by_cases h0 : l = []
  · subst h0
    constructor
    · intro _
      exact Or.inl (by simp)
    · intro _
      exact ⟨[], by simp [packetFromIterator, versionFromIterator]⟩
  · have hv : versionFromIterator l = some (binToNat (l.take 3), l.drop 3) := by
      unfold versionFromIterator
      rw [if_neg]
      intro htake
      rw [List.take_eq_nil_iff] at htake
      rcases htake with h | h
      · exact absurd h (by omega)
      · exact h0 h
    by_cases h3 : l.length ≤ 3
    · have hd : l.drop 3 = [] := by
        rw [List.drop_eq_nil_iff]
        exact h3
      have hmt : messageTypeFromIterator (l.drop 3) = PRes.err [] := by
        rw [hd]
        rfl
      constructor
      · intro _
        exact Or.inl h3
      · intro _
        exact ⟨[], by simp [packetFromIterator, hv, hmt]⟩
    · push_neg at h3
      have htk : (l.drop 3).take 3 ≠ [] := by
        intro h
        rw [List.take_eq_nil_iff] at h
        rcases h with h | h
        · exact absurd h (by omega)
        · have hlen := congrArg List.length h
          simp at hlen
          omega
      have hdd : (l.drop 3).drop 3 = l.drop 6 := by
        rw [List.drop_drop]
      by_cases h4 : binToNat ((l.drop 3).take 3) = 4
      · have hmt : messageTypeFromIterator (l.drop 3) =
            (if (literalGroups (l.drop 6)).1 = []
             then PRes.err (literalGroups (l.drop 6)).2
             else if 2 ^ 64 ≤ binToNat (literalGroups (l.drop 6)).1
               then PRes.err (literalGroups (l.drop 6)).2
               else PRes.ok (.literal (binToNat (literalGroups (l.drop 6)).1))
                 (literalGroups (l.drop 6)).2) := by
          unfold messageTypeFromIterator
          rw [if_neg htk, if_pos h4, hdd]
        by_cases hs : (literalGroups (l.drop 6)).1 = []
        · have heq : packetFromIterator (fuel + 1) l =
              PRes.err (literalGroups (l.drop 6)).2 := by
            simp only [packetFromIterator, hv, hmt]
            rw [if_pos hs]
          exact ⟨fun _ => Or.inr ⟨h4, Or.inl hs⟩, fun _ => ⟨_, heq⟩⟩
        · by_cases hov : 2 ^ 64 ≤ binToNat (literalGroups (l.drop 6)).1
          · have heq : packetFromIterator (fuel + 1) l =
                PRes.err (literalGroups (l.drop 6)).2 := by
              simp only [packetFromIterator, hv, hmt]
              rw [if_neg hs, if_pos hov]
            exact ⟨fun _ => Or.inr ⟨h4, Or.inr hov⟩, fun _ => ⟨_, heq⟩⟩
          · have heq : packetFromIterator (fuel + 1) l =
                PRes.ok (Packet.mk (binToNat (l.take 3))
                  (.literal (binToNat (literalGroups (l.drop 6)).1))
                  []) (literalGroups (l.drop 6)).2 := by
              simp only [packetFromIterator, hv, hmt]
              rw [if_neg hs, if_neg hov]
            constructor
            · rintro ⟨r, hr⟩
              rw [heq] at hr
              exact PRes.noConfusion hr
            · rintro (h | ⟨_, hc | hc⟩)
              · omega
              · exact absurd hc hs
              · exact absurd hc hov
      · have htid8 : binToNat ((l.drop 3).take 3) < 8 := by
          have hb := binToNat_lt ((l.drop 3).take 3)
          have htlen : ((l.drop 3).take 3).length ≤ 3 := by
            simp [List.length_take]
          calc binToNat ((l.drop 3).take 3) < 2 ^ ((l.drop 3).take 3).length := hb
            _ ≤ 2 ^ 3 := Nat.pow_le_pow_right (by norm_num) htlen
            _ = 8 := by norm_num
        obtain ⟨op, hop⟩ : ∃ op,
            operatorTypeFromTypeId (binToNat ((l.drop 3).take 3)) = some op := by
          set tid := binToNat ((l.drop 3).take 3) with htiddef
          interval_cases tid <;> first
            | exact absurd rfl h4
            | exact ⟨_, rfl⟩
        have hrhs : ¬ (l.length ≤ 3 ∨
            (binToNat ((l.drop 3).take 3) = 4 ∧
              ((literalGroups (l.drop 6)).1 = [] ∨
                2 ^ 64 ≤ binToNat (literalGroups (l.drop 6)).1))) := by
          rintro (h | ⟨hc, _⟩)
          · omega
          · exact h4 hc
        rcases lengthType_cases ((l.drop 3).drop 3) with ⟨lt, r2, hlt⟩ | hlt
        · have hmt : messageTypeFromIterator (l.drop 3) =
              PRes.ok (.operator lt op) r2 := by
            unfold messageTypeFromIterator
            rw [if_neg htk, if_neg h4, hlt, hop]
          have hne : ∀ r, packetFromIterator (fuel + 1) l ≠ PRes.err r := by
            intro r h
            simp only [packetFromIterator, hv, hmt] at h
            cases lt with
            | totalLengthInBits bits =>
              cases hq : parseAllPackets fuel (r2.take bits) with
              | ok ps r3 => simp [hq] at h
              | err r3 => exact (parse_loops_ne_err fuel).1 _ _ hq
              | panicked => simp [hq] at h
              | spin => simp [hq] at h
            | subpacketCount count =>
              cases hq : parseCountPackets fuel count r2 with
              | ok ps r3 => simp [hq] at h
              | err r3 => exact (parse_loops_ne_err fuel).2 _ _ _ hq
              | panicked => simp [hq] at h
              | spin => simp [hq] at h
          constructor
          · rintro ⟨r, hr⟩
            exact absurd hr (hne r)
          · intro h
            exact absurd h hrhs
        · have hmt : messageTypeFromIterator (l.drop 3) = PRes.panicked := by
            unfold messageTypeFromIterator
            rw [if_neg htk, if_neg h4, hlt]
          have heq : packetFromIterator (fuel + 1) l = PRes.panicked := by
            simp [packetFromIterator, hv, hmt]
          constructor
          · rintro ⟨r, hr⟩
            rw [heq] at hr
            exact PRes.noConfusion hr
          · intro h
            exact absurd h hrhs

/-- C5 (amended): decoding reports an error result exactly when the stream
has at most 3 bits (the version or the type id runs out entirely), or the
type id is 4 (a literal) and either the digit-group loop collects no bits
at all or the collected digit bits encode a value of at least 2^64 (the
`u64::from_str_radix` overflow). A stream ending exactly before the
length-type bit, or within an empty 15-bit/11-bit length field, aborts
with a panic (`expect`) rather than an error result; and a 5-bit literal
group, 15-bit total-length or 11-bit count field that is merely short is
parsed from the bits that remain, so decoding can return a packet from a
truncated stream. -/
theorem c5_truncation_amended :
    (∀ (fuel : Nat) (l : List Bool),
        (∃ r, packetFromIterator (fuel + 1) l = PRes.err r) ↔
          (l.length ≤ 3 ∨
            (binToNat ((l.drop 3).take 3) = 4 ∧
              ((literalGroups (l.drop 6)).1 = [] ∨
                2 ^ 64 ≤ binToNat (literalGroups (l.drop 6)).1)))) ∧
    (packetFromIterator 9 [false, false, false, false, false] = .panicked) :=
  ⟨fun fuel l => packet_err_iff fuel l, by decide⟩

/-- Witness for C5 (amended): the 1-bit stream yields an error result. -/
theorem c5_witness : ∃ r, packetFromIterator 1 [true] = PRes.err r :=
  (c5_truncation_amended.1 0 [true]).mpr (Or.inl (by decide))

end Day16

namespace Day15

theorem getPoint_eq_some (i : Input) (x y : Nat) (q : Point)
    (h : i.getPoint x y = some q) : q ∈ i.points ∧ q.x = x ∧ q.y = y := by
  have hm := List.mem_of_find?_eq_some h
  have hp := List.find?_some h
  simp only [Bool.and_eq_true, beq_iff_eq] at hp
  exact ⟨hm, hp.1, hp.2⟩

theorem getPoint_isSome (i : Input) (x y : Nat) (q : Point)
    (hq : q ∈ i.points) (hx : q.x = x) (hy : q.y = y) :
    ∃ r, i.getPoint x y = some r := by
  have : (i.points.find? (fun p => p.x == x && p.y == y)).isSome := by
    rw [List.find?_isSome]
    exact ⟨q, hq, by simp [hx, hy]⟩
  exact Option.isSome_iff_exists.mp this

theorem mem_insertNode (l : List Point) (p q : Point) :
    q ∈ insertNode l p ↔ q ∈ l ∨ q = p := by
  unfold insertNode
  by_cases h : p ∈ l
  · simp only [if_pos h]
    constructor
    · exact Or.inl
    · rintro (hq | rfl)
      · exact hq
      · exact h
  · simp [if_neg h]

theorem mem_nodesOfEdges (es : List Edge) (p : Point) :
    p ∈ nodesOfEdges es ↔ ∃ e ∈ es, p = e.a ∨ p = e.b := by
  have gen : ∀ (acc : List Point),
      p ∈ es.foldl (fun l e => insertNode (insertNode l e.a) e.b) acc ↔
        p ∈ acc ∨ ∃ e ∈ es, p = e.a ∨ p = e.b := by
    induction es with
    | nil => intro acc; simp
    | cons e es ih =>
      intro acc
      simp only [List.foldl_cons, ih, mem_insertNode, List.mem_cons]
      constructor
      · rintro ((( h | rfl) | rfl) | ⟨f, hf, hor⟩)
        · exact Or.inl h
        · exact Or.inr ⟨e, Or.inl rfl, Or.inl rfl⟩
        · exact Or.inr ⟨e, Or.inl rfl, Or.inr rfl⟩
        · exact Or.inr ⟨f, Or.inr hf, hor⟩
      · rintro (h | ⟨f, hf, hor⟩)
        · exact Or.inl (Or.inl (Or.inl h))
        · rcases hf with rfl | hf2
          · rcases hor with rfl | rfl
            · exact Or.inl (Or.inl (Or.inr rfl))
            · exact Or.inl (Or.inr rfl)
          · exact Or.inr ⟨f, hf2, hor⟩
  simpa using gen []

theorem mem_intoEdges (i : Input) (e : Edge) :
    e ∈ i.intoEdges ↔
      e.a ∈ i.points ∧
        (i.getPoint e.a.x (e.a.y + 1) = some e.b ∨
         i.getPoint (e.a.x + 1) e.a.y = some e.b) := by
  unfold Input.intoEdges
  simp only [List.mem_flatMap, List.mem_append]
  constructor
  · rintro ⟨p, hp, h | h⟩
    · cases hd : i.getPoint p.x (p.y + 1) with
      | none => rw [hd] at h; simp at h
      | some q =>
        rw [hd] at h
        simp only [Option.map_some', Option.toList_some, List.mem_singleton] at h
        subst h
        exact ⟨hp, Or.inl hd⟩
    · cases hd : i.getPoint (p.x + 1) p.y with
      | none => rw [hd] at h; simp at h
      | some q =>
        rw [hd] at h
        simp only [Option.map_some', Option.toList_some, List.mem_singleton] at h
        subst h
        exact ⟨hp, Or.inr hd⟩
  · rintro ⟨ha, hd | hd⟩
    · exact ⟨e.a, ha, Or.inl (by simp [hd])⟩
    · exact ⟨e.a, ha, Or.inr (by simp [hd])⟩


theorem IsGrid.uniq {i : Input} {W H : Nat} (hg : IsGrid i W H) {p q : Point}
    (hp : p ∈ i.points) (hq : q ∈ i.points) (hx : p.x = q.x) (hy : p.y = q.y) :
    p = q :=
  hg.2.2.2.2 p hp q hq hx hy

theorem step_iff {i : Input} {W H : Nat} (hg : IsGrid i W H) (p q : Point) :
    IsStep i.intoEdges p q ↔ (p ∈ i.points ∧ q ∈ i.points ∧ gridStep p q) := by
  constructor
  · rintro ⟨e, he, hor⟩
    obtain ⟨ha, hd⟩ := (mem_intoEdges i e).mp he
    have hb : e.b ∈ i.points ∧
        (e.b.x = e.a.x ∧ e.b.y = e.a.y + 1 ∨ e.b.x = e.a.x + 1 ∧ e.b.y = e.a.y) := by
      rcases hd with hd | hd
      · obtain ⟨hm, hx, hy⟩ := getPoint_eq_some i _ _ _ hd
        exact ⟨hm, Or.inl ⟨hx, hy⟩⟩
      · obtain ⟨hm, hx, hy⟩ := getPoint_eq_some i _ _ _ hd
        exact ⟨hm, Or.inr ⟨hx, hy⟩⟩
    rcases hor with ⟨rfl, rfl⟩ | ⟨rfl, rfl⟩
    · refine ⟨ha, hb.1, ?_⟩
      rcases hb.2 with ⟨hx, hy⟩ | ⟨hx, hy⟩
      · exact Or.inl ⟨hx.symm, Or.inl hy.symm⟩
      · exact Or.inr ⟨hy.symm, Or.inl hx.symm⟩
    · refine ⟨hb.1, ha, ?_⟩
      rcases hb.2 with ⟨hx, hy⟩ | ⟨hx, hy⟩
      · exact Or.inl ⟨hx, Or.inr hy.symm⟩
      · exact Or.inr ⟨hy, Or.inr hx.symm⟩
  · rintro ⟨hp, hq, hstep⟩
    rcases hstep with ⟨hx, hy | hy⟩ | ⟨hy, hx | hx⟩
    · obtain ⟨r, hr⟩ := getPoint_isSome i p.x (p.y + 1) q hq hx.symm hy.symm
      obtain ⟨hrm, hrx, hry⟩ := getPoint_eq_some i _ _ _ hr
      have hrq : r = q := hg.uniq hrm hq (by rw [hrx, hx]) (by rw [hry, hy])
      exact ⟨Edge.mk p q, (mem_intoEdges i (Edge.mk p q)).mpr
        ⟨hp, Or.inl (hrq ▸ hr)⟩, Or.inl ⟨rfl, rfl⟩⟩
    · obtain ⟨r, hr⟩ := getPoint_isSome i q.x (q.y + 1) p hp hx (by omega)
      obtain ⟨hrm, hrx, hry⟩ := getPoint_eq_some i _ _ _ hr
      have hrp : r = p := hg.uniq hrm hp (by rw [hrx, hx]) (by rw [hry]; omega)
      exact ⟨Edge.mk q p, (mem_intoEdges i (Edge.mk q p)).mpr
        ⟨hq, Or.inl (hrp ▸ hr)⟩, Or.inr ⟨rfl, rfl⟩⟩
    · obtain ⟨r, hr⟩ := getPoint_isSome i (p.x + 1) p.y q hq hx.symm hy.symm
      obtain ⟨hrm, hrx, hry⟩ := getPoint_eq_some i _ _ _ hr
      have hrq : r = q := hg.uniq hrm hq (by rw [hrx, hx]) (by rw [hry, hy])
      exact ⟨Edge.mk p q, (mem_intoEdges i (Edge.mk p q)).mpr
        ⟨hp, Or.inr (hrq ▸ hr)⟩, Or.inl ⟨rfl, rfl⟩⟩
    · obtain ⟨r, hr⟩ := getPoint_isSome i (q.x + 1) q.y p hp (by omega) hy
      obtain ⟨hrm, hrx, hry⟩ := getPoint_eq_some i _ _ _ hr
      have hrp : r = p := hg.uniq hrm hp (by rw [hrx]; omega) (by rw [hry, hy])
      exact ⟨Edge.mk q p, (mem_intoEdges i (Edge.mk q p)).mpr
        ⟨hq, Or.inr (hrp ▸ hr)⟩, Or.inr ⟨rfl, rfl⟩⟩


theorem nodes_sub_points (i : Input) (p : Point)
    (h : p ∈ nodesOfEdges i.intoEdges) : p ∈ i.points := by
  obtain ⟨e, he, hor⟩ := (mem_nodesOfEdges _ _).mp h
  obtain ⟨ha, hd⟩ := (mem_intoEdges i e).mp he
  rcases hor with rfl | rfl
  · exact ha
  · rcases hd with hd | hd
    · exact (getPoint_eq_some i _ _ _ hd).1
    · exact (getPoint_eq_some i _ _ _ hd).1

theorem points_sub_nodes {i : Input} {W H : Nat} (hg : IsGrid i W H)
    (h2 : 2 ≤ W * H) (p : Point) (hp : p ∈ i.points) :
    p ∈ nodesOfEdges i.intoEdges := by
  obtain ⟨hW, hH, hbound, hex, huniq⟩ := hg
  have hpb := hbound p hp
  rw [mem_nodesOfEdges]
  have neighbour : ∃ q : Point, q ∈ i.points ∧ gridStep p q := by
    by_cases hW2 : 2 ≤ W
    · by_cases hx : p.x + 1 < W
      · obtain ⟨q, hq, hqx, hqy⟩ := hex (p.x + 1) hx p.y hpb.2
        exact ⟨q, hq, Or.inr ⟨hqy.symm, Or.inl hqx.symm⟩⟩
      · have hx1 : 1 ≤ p.x := by omega
        obtain ⟨q, hq, hqx, hqy⟩ := hex (p.x - 1) (by omega) p.y hpb.2
        exact ⟨q, hq, Or.inr ⟨hqy.symm, Or.inr (by omega)⟩⟩
    · have hH2 : 2 ≤ H := by
        rcases Nat.lt_or_ge W 2 with h | h
        · have hW1 : W = 1 := by omega
          rw [hW1] at h2; omega
        · omega
      by_cases hy : p.y + 1 < H
      · obtain ⟨q, hq, hqx, hqy⟩ := hex p.x hpb.1 (p.y + 1) hy
        exact ⟨q, hq, Or.inl ⟨hqx.symm, Or.inl hqy.symm⟩⟩
      · have hy1 : 1 ≤ p.y := by omega
        obtain ⟨q, hq, hqx, hqy⟩ := hex p.x hpb.1 (p.y - 1) (by omega)
        exact ⟨q, hq, Or.inl ⟨hqx.symm, Or.inr (by omega)⟩⟩
  obtain ⟨q, hq, hstep⟩ := neighbour
  have : IsStep i.intoEdges p q :=
    (step_iff ⟨hW, hH, hbound, hex, huniq⟩ p q).mpr ⟨hp, hq, hstep⟩
  obtain ⟨e, he, hor⟩ := this
  rcases hor with ⟨rfl, rfl⟩ | ⟨rfl, rfl⟩
  · exact ⟨e, he, Or.inl rfl⟩
  · exact ⟨e, he, Or.inr rfl⟩

theorem findStart_spec {i : Input} {W H : Nat} (hg : IsGrid i W H)
    (h2 : 2 ≤ W * H) :
    ∃ s, findStart (nodesOfEdges i.intoEdges) = some s ∧
      s ∈ i.points ∧ s.x = 0 ∧ s.y = 0 := by
  obtain ⟨c0, hc0, hc0x, hc0y⟩ := hg.2.2.2.1 0 hg.1 0 hg.2.1
  have hc0n : c0 ∈ nodesOfEdges i.intoEdges := points_sub_nodes hg h2 c0 hc0
  have hsome : ((nodesOfEdges i.intoEdges).find?
      (fun p => p.x == 0 && p.y == 0)).isSome := by
    rw [List.find?_isSome]
    exact ⟨c0, hc0n, by simp [hc0x, hc0y]⟩
  obtain ⟨s, hs⟩ := Option.isSome_iff_exists.mp hsome
  refine ⟨s, hs, nodes_sub_points i s (List.mem_of_find?_eq_some hs), ?_, ?_⟩
  · have := List.find?_some hs
    simp only [Bool.and_eq_true, beq_iff_eq] at this
    exact this.1
  · have := List.find?_some hs
    simp only [Bool.and_eq_true, beq_iff_eq] at this
    exact this.2

theorem reduceEnd_fold_spec (h : Point) (t : List Point) :
    (t.foldl (fun acc p =>
        if acc.x < p.x ∨ (acc.x = p.x ∧ acc.y < p.y) then p else acc) h) ∈ h :: t ∧
    ∀ p ∈ h :: t,
      p.x < (t.foldl (fun acc p =>
        if acc.x < p.x ∨ (acc.x = p.x ∧ acc.y < p.y) then p else acc) h).x ∨
      (p.x = (t.foldl (fun acc p =>
        if acc.x < p.x ∨ (acc.x = p.x ∧ acc.y < p.y) then p else acc) h).x ∧
       p.y ≤ (t.foldl (fun acc p =>
        if acc.x < p.x ∨ (acc.x = p.x ∧ acc.y < p.y) then p else acc) h).y) := by
  induction t generalizing h with
  | nil => simp
  | cons q t ih =>
    simp only [List.foldl_cons]
    set g := if h.x < q.x ∨ (h.x = q.x ∧ h.y < q.y) then q else h with hgdef
    obtain ⟨ihm, ihle⟩ := ih g
    have hgor : g = q ∨ g = h := by
      rw [hgdef]; split
      · exact Or.inl rfl
      · exact Or.inr rfl
    have hhg : h.x < g.x ∨ (h.x = g.x ∧ h.y ≤ g.y) := by
      rw [hgdef]; split
      · omega
      · omega
    have hqg : q.x < g.x ∨ (q.x = g.x ∧ q.y ≤ g.y) := by
      rw [hgdef]; split
      · omega
      · next hcond =>
        push_neg at hcond
        omega
    have hgfold := ihle g (List.mem_cons_self _ _)
    constructor
    · rcases List.mem_cons.mp ihm with he | ht2
      · rcases hgor with hgq | hgh
        · rw [he, hgq]; exact List.mem_cons_of_mem _ (List.mem_cons_self _ _)
        · rw [he, hgh]; exact List.mem_cons_self _ _
      · exact List.mem_cons_of_mem _ (List.mem_cons_of_mem _ ht2)
    · intro p hp
      rcases List.mem_cons.mp hp with rfl | hp2
      · omega
      · rcases List.mem_cons.mp hp2 with rfl | hp3
        · omega
        · exact ihle p (List.mem_cons_of_mem _ hp3)

theorem reduceEnd_spec {i : Input} {W H : Nat} (hg : IsGrid i W H)
    (h2 : 2 ≤ W * H) :
    ∃ t, reduceEnd (nodesOfEdges i.intoEdges) = some t ∧
      t ∈ i.points ∧ t.x = W - 1 ∧ t.y = H - 1 := by
  obtain ⟨hW, hH, hbound, hex, huniq⟩ := hg
  have hg2 : IsGrid i W H := ⟨hW, hH, hbound, hex, huniq⟩
  obtain ⟨cWH, hcWH, hcx, hcy⟩ := hex (W - 1) (by omega) (H - 1) (by omega)
  have hcn : cWH ∈ nodesOfEdges i.intoEdges := points_sub_nodes hg2 h2 cWH hcWH
  cases hns : nodesOfEdges i.intoEdges with
  | nil => rw [hns] at hcn; simp at hcn
  | cons h t =>
    obtain ⟨hm, hle⟩ := reduceEnd_fold_spec h t
    set m := t.foldl (fun acc p =>
      if acc.x < p.x ∨ (acc.x = p.x ∧ acc.y < p.y) then p else acc) h with hmdef
    have hmn : m ∈ nodesOfEdges i.intoEdges := by rw [hns]; exact hm
    have hmp : m ∈ i.points := nodes_sub_points i m hmn
    have hmb := hbound m hmp
    have hcle := hle cWH (by rw [← hns]; exact hcn)
    refine ⟨m, ?_, hmp, by omega, by omega⟩
    unfold reduceEnd
    exact congrArg some hmdef.symm


theorem chain_iff {i : Input} {W H : Nat} (hg : IsGrid i W H) :
    ∀ (l : List Point) (s : Point), s ∈ i.points →
    (List.Chain (IsStep i.intoEdges) s l ↔
      ((∀ p ∈ l, p ∈ i.points) ∧ List.Chain gridStep s l)) := by
  intro l
  induction l with
  | nil => intro s hs; simp
  | cons q l ih =>
    intro s hs
    rw [List.chain_cons, List.chain_cons]
    constructor
    · rintro ⟨hstep, hchain⟩
      obtain ⟨_, hq, hgs⟩ := (step_iff hg s q).mp hstep
      obtain ⟨hmem, hch⟩ := (ih q hq).mp hchain
      refine ⟨?_, hgs, hch⟩
      intro p hp
      rcases List.mem_cons.mp hp with rfl | h
      · exact hq
      · exact hmem p h
    · rintro ⟨hmem, hgs, hch⟩
      have hq : q ∈ i.points := hmem q (List.mem_cons_self _ _)
      exact ⟨(step_iff hg s q).mpr ⟨hs, hq, hgs⟩,
        (ih q hq).mpr ⟨fun p hp => hmem p (List.mem_cons_of_mem _ hp), hch⟩⟩

theorem reachCosts_eq_gridWalkCosts {i : Input} {W H : Nat} (hg : IsGrid i W H)
    (s t : Point) (hs : s ∈ i.points) :
    reachCosts i.intoEdges s t = gridWalkCosts i s t := by
  ext c
  unfold reachCosts gridWalkCosts IsGraphWalk IsGridWalk
  simp only [Set.mem_setOf_eq]
  constructor
  · rintro ⟨l, ⟨hchain, hlast⟩, rfl⟩
    obtain ⟨hmem, hch⟩ := (chain_iff hg l s hs).mp hchain
    exact ⟨l, ⟨hmem, hch, hlast⟩, rfl⟩
  · rintro ⟨l, ⟨hmem, hch, hlast⟩, rfl⟩
    exact ⟨l, ⟨(chain_iff hg l s hs).mpr ⟨hmem, hch⟩, hlast⟩, rfl⟩

theorem chain_snoc {R : Point → Point → Prop} :
    ∀ (l : List Point) (s t q : Point), List.Chain R s l →
      (s :: l).getLast? = some t → R t q → List.Chain R s (l ++ [q]) := by
  intro l
  induction l with
  | nil =>
    intro s t q hch hlast hR
    simp only [List.getLast?_singleton, Option.some.injEq] at hlast
    subst hlast
    exact List.Chain.cons hR List.Chain.nil
  | cons a l ih =>
    intro s t q hch hlast hR
    rw [List.chain_cons] at hch
    rw [List.getLast?_cons_cons] at hlast
    exact List.Chain.cons hch.1 (ih a t q hch.2 hlast hR)

theorem gridWalk_snoc {i : Input} {s t q : Point} {l : List Point}
    (hw : IsGridWalk i s t l) (hq : q ∈ i.points) (hstep : gridStep t q) :
    IsGridWalk i s q (l ++ [q]) := by
  obtain ⟨hmem, hch, hlast⟩ := hw
  refine ⟨?_, chain_snoc l s t q hch hlast hstep, ?_⟩
  · intro p hp
    rcases List.mem_append.mp hp with h | h
    · exact hmem p h
    · rw [List.mem_singleton] at h
      subst h
      exact hq
  · rw [show s :: (l ++ [q]) = (s :: l) ++ [q] from rfl]
    exact List.getLast?_concat _

theorem grid_reach {i : Input} {W H : Nat} (hg : IsGrid i W H)
    {s : Point} (hs : s ∈ i.points) (hsx : s.x = 0) (hsy : s.y = 0) :
    ∀ (n x y : Nat), x + y = n → x < W → y < H →
      ∀ q ∈ i.points, q.x = x → q.y = y → ∃ l, IsGridWalk i s q l := by
  intro n
  induction n using Nat.strong_induction_on with
  | _ n ih =>
    intro x y hn hx hy q hq hqx hqy
    by_cases h0 : x = 0 ∧ y = 0
    · have : q = s := hg.uniq hq hs (by omega) (by omega)
      subst this
      exact ⟨[], fun p hp => absurd hp (List.not_mem_nil p), List.Chain.nil, rfl⟩
    · by_cases hx0 : 0 < x
      · obtain ⟨r, hr, hrx, hry⟩ := hg.2.2.2.1 (x - 1) (by omega) y hy
        obtain ⟨l, hw⟩ := ih (n - 1) (by omega) (x - 1) y (by omega) (by omega) hy
          r hr hrx hry
        exact ⟨l ++ [q], gridWalk_snoc hw hq
          (Or.inr ⟨by omega, Or.inl (by omega)⟩)⟩
      · have hy0 : 0 < y := by omega
        obtain ⟨r, hr, hrx, hry⟩ := hg.2.2.2.1 x hx (y - 1) (by omega)
        obtain ⟨l, hw⟩ := ih (n - 1) (by omega) x (y - 1) (by omega) hx (by omega)
          r hr hrx hry
        exact ⟨l ++ [q], gridWalk_snoc hw hq
          (Or.inl ⟨by omega, Or.inl (by omega)⟩)⟩


/-- C1 (amended): for every rectangular grid with at least two cells, the
grid search resolves the start to the cell at (0,0) and the end to the
cell with maximal (x, y) (the bottom-right corner), it returns a result
(no panic), and — with the external `petgraph::algo::astar` modelled by
its contract from the spec (`astarReturns`, the least walk cost in the
undirected graph of `into_edges` weighted by the entered node's value) —
the value it returns is exactly the minimum, over all 4-connected walks
from the (0,0) cell to the bottom-right cell, of the sum of the costs of
the cells entered (the start cell's own cost excluded). -/
theorem c1_solve_amended (i : Input) (W H : Nat)
    (hg : IsGrid i W H) (h2 : 2 ≤ W * H) :
    ∃ s t : Point,
      findStart (nodesOfEdges i.intoEdges) = some s ∧
      reduceEnd (nodesOfEdges i.intoEdges) = some t ∧
      s ∈ i.points ∧ s.x = 0 ∧ s.y = 0 ∧
      t ∈ i.points ∧ t.x = W - 1 ∧ t.y = H - 1 ∧
      (∃ c, solvePart1Rel i c) ∧
      (∀ c, solvePart1Rel i c ↔ IsLeast (gridWalkCosts i s t) c) := by
  obtain ⟨s, hsf, hsp, hsx, hsy⟩ := findStart_spec hg h2
  obtain ⟨t, htf, htp, htx, hty⟩ := reduceEnd_spec hg h2
  have hset : reachCosts i.intoEdges s t = gridWalkCosts i s t :=
    reachCosts_eq_gridWalkCosts hg s t hsp
  have hrel : ∀ c, solvePart1Rel i c ↔ IsLeast (gridWalkCosts i s t) c := by
    intro c
    unfold solvePart1Rel astarReturns
    constructor
    · rintro ⟨s2, t2, hs2, ht2, hl⟩
      rw [hsf, Option.some.injEq] at hs2
      rw [htf, Option.some.injEq] at ht2
      subst hs2
      subst ht2
      rwa [hset] at hl
    · intro hl
      exact ⟨s, t, hsf, htf, by rwa [hset]⟩
  have hne : (gridWalkCosts i s t).Nonempty := by
    have hW := hg.1
    have hH := hg.2.1
    obtain ⟨l, hw⟩ := grid_reach hg hsp hsx hsy ((W - 1) + (H - 1)) (W - 1) (H - 1)
      rfl (by omega) (by omega) t htp htx hty
    exact ⟨(l.map Point.value).sum, l, hw, rfl⟩
  have hleast : ∃ c, IsLeast (gridWalkCosts i s t) c :=
    ⟨sInf (gridWalkCosts i s t), Nat.sInf_mem hne, fun b hb => Nat.sInf_le hb⟩
  refine ⟨s, t, hsf, htf, hsp, hsx, hsy, htp, htx, hty, ?_, hrel⟩
  obtain ⟨c, hc⟩ := hleast
  exact ⟨c, (hrel c).mpr hc⟩

/-- C1 (counterexample): on a non-empty rectangular 1×1 grid the claim
prescribes returning 0 (the least 4-connected walk cost, witnessed by the
empty walk), but `into_edges` is empty, so the graph has no nodes and the
start lookup fails — `solve_part1` panics on
`expect("(0, 0) must be contained in the graph")` and returns nothing. -/
theorem c1_counterexample :
    (∀ c, ¬ solvePart1Rel (Input.mk [⟨0, 0, 5⟩]) c) ∧
    IsLeast (gridWalkCosts (Input.mk [⟨0, 0, 5⟩]) ⟨0, 0, 5⟩ ⟨0, 0, 5⟩) 0 := by
  constructor
  · rintro c ⟨s, t, hs, ht, hl⟩
    have : findStart (nodesOfEdges (Input.mk [⟨0, 0, 5⟩]).intoEdges) = none := by
      decide
    rw [this] at hs
    exact Option.noConfusion hs
  · constructor
    · exact ⟨[], ⟨fun p hp => absurd hp (List.not_mem_nil p),
        List.Chain.nil, rfl⟩, rfl⟩
    · intro b hb
      exact Nat.zero_le b

/-- Witness for C1 (amended) on a concrete 2×1 grid. -/
theorem c1_witness :
    ∃ c, solvePart1Rel (Input.mk [⟨0, 0, 1⟩, ⟨1, 0, 2⟩]) c := by
  obtain ⟨s, t, hsf, htf, hsp, hsx, hsy, htp, htx, hty, hex, hrel⟩ :=
    c1_solve_amended (Input.mk [⟨0, 0, 1⟩, ⟨1, 0, 2⟩]) 2 1
      (by decide) (by decide)
  exact hex

end Day15
